import Mathlib

/-!
Verification of the EphemeralDB document store
(`src/orion/core/io/database/ephemeraldb.py`).

Shallow embedding conventions:
* Python strings are `List Char` (`Key`); Python's dynamically typed values
  are the closed variant `Value` (integers, strings, booleans, `None`,
  lists, nested dicts).
* Python dicts are association lists `List (Key × Value)` with the usual
  dict operations (`alistGet`, `alistSet`); dict equality in the claims is
  taken key-wise, which for the well-formed (duplicate-free) lists produced
  by the code coincides with list equality up to the insertion order that
  the functions below preserve.  `_flatten` is written head-first where the
  Python code pops items from the tail (`popitem`); the two orders produce
  the same key-value map.
* Fallible Python code (KeyError, IndexError, TypeError, ValueError,
  DuplicateKeyError) is modelled with `Except DBError` / `Option`; in-place
  mutation (of a collection, or of the caller's record in `insert_many`)
  becomes explicit state passing, with the state at the moment an exception
  is raised returned alongside the error, so that partial effects are
  visible.
-/

/-- Python `str` as a list of characters. -/
abbrev Key := List Char

/-- Closed variant type for the dynamically typed values stored in
documents, queries and projection specifications. -/
inductive Value where
  | int (n : Int)
  | str (s : List Char)
  | bool (b : Bool)
  | null
  | list (l : List Value)
  | dict (d : List (Key × Value))
deriving Repr

/-- A Python dict (nested record, flat map, query, projection spec, …) as an
association list. -/
abbrev Doc := List (Key × Value)

mutual
/-- Structural equality of `Value`s (Python `==`). -/
def valueBeq : Value → Value → Bool
  | .int m, .int n => m == n
  | .str s, .str t => s == t
  | .bool a, .bool b => a == b
  | .null, .null => true
  | .list l, .list m => listBeq l m
  | .dict d, .dict e => docBeq d e
  | _, _ => false

/-- Equality of lists of `Value`s. -/
def listBeq : List Value → List Value → Bool
  | [], [] => true
  | a :: as, b :: bs => valueBeq a b && listBeq as bs
  | _, _ => false

/-- Equality of association lists of `Value`s. -/
def docBeq : Doc → Doc → Bool
  | [], [] => true
  | (k, v) :: r, (k', v') :: r' => k == k' && valueBeq v v' && docBeq r r'
  | _, _ => false
end

mutual
theorem valueBeq_refl : ∀ a : Value, valueBeq a a = true
  | .int m => by simp [valueBeq]
  | .str s => by simp [valueBeq]
  | .bool b => by simp [valueBeq]
  | .null => by simp [valueBeq]
  | .list l => by simp [valueBeq, listBeq_refl l]
  | .dict d => by simp [valueBeq, docBeq_refl d]

theorem listBeq_refl : ∀ l : List Value, listBeq l l = true
  | [] => by simp [listBeq]
  | a :: as => by simp [listBeq, valueBeq_refl a, listBeq_refl as]

theorem docBeq_refl : ∀ d : Doc, docBeq d d = true
  | [] => by simp [docBeq]
  | (k, v) :: r => by simp [docBeq, valueBeq_refl v, docBeq_refl r]
end

mutual
theorem valueBeq_sound : ∀ a b : Value, valueBeq a b = true → a = b
  | .int m, .int n => by simp [valueBeq]
  | .str s, .str t => by simp [valueBeq]
  | .bool a, .bool b => by simp [valueBeq]
  | .null, .null => by simp
  | .list l, .list m => by
      intro h
      have := listBeq_sound l m (by simpa [valueBeq] using h)
      simp [this]
  | .dict d, .dict e => by
      intro h
      have := docBeq_sound d e (by simpa [valueBeq] using h)
      simp [this]
  | .int _, .str _ => by simp [valueBeq]
  | .int _, .bool _ => by simp [valueBeq]
  | .int _, .null => by simp [valueBeq]
  | .int _, .list _ => by simp [valueBeq]
  | .int _, .dict _ => by simp [valueBeq]
  | .str _, .int _ => by simp [valueBeq]
  | .str _, .bool _ => by simp [valueBeq]
  | .str _, .null => by simp [valueBeq]
  | .str _, .list _ => by simp [valueBeq]
  | .str _, .dict _ => by simp [valueBeq]
  | .bool _, .int _ => by simp [valueBeq]
  | .bool _, .str _ => by simp [valueBeq]
  | .bool _, .null => by simp [valueBeq]
  | .bool _, .list _ => by simp [valueBeq]
  | .bool _, .dict _ => by simp [valueBeq]
  | .null, .int _ => by simp [valueBeq]
  | .null, .str _ => by simp [valueBeq]
  | .null, .bool _ => by simp [valueBeq]
  | .null, .list _ => by simp [valueBeq]
  | .null, .dict _ => by simp [valueBeq]
  | .list _, .int _ => by simp [valueBeq]
  | .list _, .str _ => by simp [valueBeq]
  | .list _, .bool _ => by simp [valueBeq]
  | .list _, .null => by simp [valueBeq]
  | .list _, .dict _ => by simp [valueBeq]
  | .dict _, .int _ => by simp [valueBeq]
  | .dict _, .str _ => by simp [valueBeq]
  | .dict _, .bool _ => by simp [valueBeq]
  | .dict _, .null => by simp [valueBeq]
  | .dict _, .list _ => by simp [valueBeq]

theorem listBeq_sound : ∀ l m : List Value, listBeq l m = true → l = m
  | [], [] => by simp
  | a :: as, b :: bs => by
      intro h
      simp only [listBeq, Bool.and_eq_true] at h
      have h1 := valueBeq_sound a b h.1
      have h2 := listBeq_sound as bs h.2
      simp [h1, h2]
  | [], _ :: _ => by simp [listBeq]
  | _ :: _, [] => by simp [listBeq]

theorem docBeq_sound : ∀ d e : Doc, docBeq d e = true → d = e
  | [], [] => by simp
  | (k, v) :: r, (k', v') :: r' => by
      intro h
      simp only [docBeq, Bool.and_eq_true] at h
      have h1 : k = k' := by simpa using h.1.1
      have h2 := valueBeq_sound v v' h.1.2
      have h3 := docBeq_sound r r' h.2
      simp [h1, h2, h3]
  | [], _ :: _ => by simp [docBeq]
  | _ :: _, [] => by simp [docBeq]
end

instance : DecidableEq Value := fun a b =>
  if h : valueBeq a b = true then isTrue (valueBeq_sound a b h)
  else isFalse (fun he => h (he ▸ valueBeq_refl a))

/-- Python dict lookup `d[key]` / `d.get(key)` on an association list:
first binding wins (association lists built by the code below never hold a
key twice, mirroring Python dicts). -/
def alistGet {α β : Type} [DecidableEq α] : List (α × β) → α → Option β
  | [], _ => none
  | (k, v) :: rest, key => if k = key then some v else alistGet rest key

/-- Python dict assignment `d[key] = v`: replace the existing binding in
place, else append a new one (Python dicts keep insertion order). -/
def alistSet {α β : Type} [DecidableEq α] : List (α × β) → α → β → List (α × β)
  | [], key, v => [(key, v)]
  | (k, w) :: rest, key, v =>
    if k = key then (k, v) :: rest else (k, w) :: alistSet rest key v

/-- Python `d.update(m)`: merge `m` into `d`, overwriting on collision,
appending new keys in `m`'s order, never removing a key. -/
def dictMerge (d m : Doc) : Doc := m.foldl (fun acc kv => alistSet acc kv.1 kv.2) d

/-- Python `key.split(".")`; always returns at least one segment. -/
def splitOnDot : List Char → List (List Char)
  | [] => [[]]
  | c :: cs =>
    if c = '.' then [] :: splitOnDot cs
    else
      match splitOnDot cs with
      | [] => [[c]]
      | s :: ss => (c :: s) :: ss

/-- Python `".".join(parts)`. -/
def joinDot : List (List Char) → List Char
  | [] => []
  | [s] => s
  | s :: rest => s ++ '.' :: joinDot rest

mutual
/-- `_flatten`, inner value case: a value that is not a dict, or is an empty
dict, is a leaf kept as is under its key; a non-empty dict is flattened
recursively and every resulting key is prefixed with `key ++ "."`
(ephemeraldb.py lines 433-453). -/
def flattenVal (k : Key) : Value → Doc
  | .dict [] => [(k, .dict [])]
  | .dict (p :: ps) => (flattenDoc (p :: ps)).map (fun kv => (k ++ '.' :: kv.1, kv.2))
  | v => [(k, v)]

/-- `_flatten` over the bindings of a dict.  The Python original consumes
the dict from its last binding (`popitem`) and rebuilds it; processing
head-first yields the same key-value map. -/
def flattenDoc : Doc → Doc
  | [] => []
  | (k, v) :: rest => flattenVal k v ++ flattenDoc rest
end

/-- `_flatten(dictionary)` (the outer deep copy is meaningless for pure
values). -/
def _flatten (d : Doc) : Doc := flattenDoc d

/-- One `_unflatten` assignment `sub[p1][p2]…[pn] = v`, descending along the
given path, creating empty dicts for missing parts; `none` models the
TypeError Python raises when the descent or the final assignment hits a
value that is not a dict (ephemeraldb.py lines 459-465). -/
def setPath : Doc → List (List Char) → Value → Option Doc
  | _, [], _ => none
  | d, [part], v => some (alistSet d part v)
  | d, part :: q :: rest, v =>
    match alistGet d part with
    | some (.dict sub) => (setPath sub (q :: rest) v).map (fun s => alistSet d part (.dict s))
    | some _ => none
    | none => (setPath [] (q :: rest) v).map (fun s => alistSet d part (.dict s))

/-- The `_unflatten` loop over the items of the flat map, threading the
record being built. -/
def unflattenFold : Doc → Doc → Option Doc
  | acc, [] => some acc
  | acc, (k, v) :: rest =>
    match setPath acc (splitOnDot k) v with
    | none => none
    | some acc' => unflattenFold acc' rest

/-- `_unflatten(dictionary)` (ephemeraldb.py lines 456-466). -/
def _unflatten (m : Doc) : Option Doc := unflattenFold [] m

/-- All characters of a key differ from the path separator `"."`. -/
def goodKey (k : Key) : Bool := k.all (fun c => !(c == '.'))

mutual
/-- Well-formedness of a value: nested dicts are themselves well-formed
(a Python value reachable from a dict whose keys avoid `"."`). -/
def valueWF : Value → Bool
  | .dict d => docWF d
  | _ => true

/-- Well-formedness of a nested record: at every dict level the keys are
pairwise distinct (as in a Python dict) and contain no literal `"."`. -/
def docWF : Doc → Bool
  | [] => true
  | (k, v) :: rest =>
    goodKey k && !(rest.any (fun p => p.1 == k)) && valueWF v && docWF rest
end

/-- The error kinds the Python code can raise: `DuplicateKeyError` from the
index layer; `KeyError` from `document[key]` on a missing key; `ValueError`
for an unsupported query operator and for an inconsistent projection spec
(two distinct constructors, matching the two distinct messages);
`IndexError` from `key.replace(selected_key, '')[0]`; `TypeError` for the
remaining dynamic type errors (bad comparisons, subscripting a non-dict in
`_unflatten`, summing non-integers). -/
inductive DBError where
  | duplicateKey (index : List Key) (values : List Value)
  | keyError (k : Key)
  | unsupportedOperator (op : Key)
  | invalidSelection
  | indexError
  | typeError
deriving DecidableEq, Repr

/-- The field name `"_id"`. -/
def idChars : Key := ['_', 'i', 'd']

/-- The update wrapper key `"$set"`. -/
def setChars : Key := ['$', 's', 'e', 't']

/-- Lexicographic `<` on Python strings. -/
def charListLt : List Char → List Char → Bool
  | [], [] => false
  | [], _ :: _ => true
  | _ :: _, [] => false
  | a :: as, b :: bs => if a = b then charListLt as bs else decide (a < b)

/-- Python `a <= b` on stored values: defined on two integers or two
strings, a `TypeError` otherwise. -/
def valueLe (a b : Value) : Except DBError Bool :=
  match a, b with
  | .int m, .int n => .ok (decide (m ≤ n))
  | .str s, .str t => .ok (charListLt s t || s == t)
  | _, _ => .error .typeError

/-- Python `a < b` on stored values. -/
def valueLt (a b : Value) : Except DBError Bool :=
  match a, b with
  | .int m, .int n => .ok (decide (m < n))
  | .str s, .str t => .ok (charListLt s t)
  | _, _ => .error .typeError

/-- Python substring test `s in t`. -/
def isSubstringOf (s : List Char) : List Char → Bool
  | [] => s.isEmpty
  | c :: rest => s.isPrefixOf (c :: rest) || isSubstringOf s rest

/-- Python `a in b`: membership for a list, substring for a string, key
membership for a dict, `TypeError` otherwise. -/
def valueIn (a b : Value) : Except DBError Bool :=
  match b with
  | .list l => .ok (l.contains a)
  | .str t =>
    match a with
    | .str s => .ok (isSubstringOf s t)
    | _ => .error .typeError
  | .dict d =>
    match a with
    | .str s => .ok (d.any (fun p => p.1 == s))
    | _ => .ok false
  | _ => .error .typeError

/-- The operator token `"$in"`. -/
def opIn : Key := ['$', 'i', 'n']

/-- The operator token `"$gte"`. -/
def opGte : Key := ['$', 'g', 't', 'e']

/-- The operator token `"$gt"`. -/
def opGt : Key := ['$', 'g', 't']

/-- The operator token `"$lte"`. -/
def opLte : Key := ['$', 'l', 't', 'e']

/-- Membership in `EphemeralDocument.operators` (ephemeraldb.py lines
285-290). -/
def isSupportedOp (op : Key) : Bool :=
  op = opIn || op = opGte || op = opGt || op = opLte

/-- The four operator lambdas of `EphemeralDocument.operators`: `$gte`,
`$gt` and `$lte` first test `a is not None`; `$in` is plain membership. -/
def applyOperator (op : Key) (a b : Value) : Except DBError Bool :=
  if op = opIn then valueIn a b
  else if op = opGte then (if a = .null then .ok false else valueLe b a)
  else if op = opGt then (if a = .null then .ok false else valueLt b a)
  else if op = opLte then (if a = .null then .ok false else valueLe a b)
  else .error (.unsupportedOperator op)

/-- `EphemeralDocument._is_operator`: the last dot-segment of the key starts
with `'$'`. -/
def isOperatorKey (key : Key) : Bool :=
  match (splitOnDot key).getLastD [] with
  | '$' :: _ => true
  | _ => false

/-- `EphemeralDocument.match_key` over the flattened document data: strip a
trailing operator segment (raising *unsupported-operator* for a token other
than the four known ones, before the key is looked up), then a missing
field never matches, and without an operator the stored value must equal
the query value (ephemeraldb.py lines 308-333). -/
def match_key (data : Doc) (key : Key) (value : Value) : Except DBError Bool :=
  if isOperatorKey key then
    let segs := splitOnDot key
    let op := segs.getLastD []
    let k := joinDot segs.dropLast
    if !isSupportedOp op then .error (.unsupportedOperator op)
    else
      match alistGet data k with
      | none => .ok false
      | some a => applyOperator op a value
  else
    match alistGet data key with
    | none => .ok false
    | some a => .ok (valueBeq a value)

/-- The conjunction loop of `EphemeralDocument.match`: the first pair that
fails returns `False`, an error raised by `match_key` propagates. -/
def matchLoop (data : Doc) : Doc → Except DBError Bool
  | [] => .ok true
  | (k, v) :: rest =>
    match match_key data k v with
    | .error e => .error e
    | .ok false => .ok false
    | .ok true => matchLoop data rest

/-- `EphemeralDocument.match`: `None` and `{}` match unconditionally, any
other query is flattened and all its pairs must hold (ephemeraldb.py lines
296-306). -/
def docMatch (data : Doc) (query : Option Doc) : Except DBError Bool :=
  match query with
  | none => .ok true
  | some q => if q = [] then .ok true else matchLoop data (_flatten q)

/-- Python truthiness of a `Value` (`if include and …`). -/
def pyTruthy : Value → Bool
  | .int n => n != 0
  | .str s => !s.isEmpty
  | .bool b => b
  | .null => false
  | .list l => !l.isEmpty
  | .dict d => !d.isEmpty

/-- Python `s.replace(old, '')`: delete every non-overlapping occurrence of
`pat` scanning left to right (with Python's convention that replacing the
empty string by the empty string is the identity).  The `Nat` fuel makes
the left-to-right scan structural; `replaceAll` always supplies enough. -/
def replaceAllFuel (pat : List Char) : Nat → List Char → List Char
  | _, [] => []
  | 0, s => s
  | n + 1, c :: rest =>
    if pat.isPrefixOf (c :: rest) then replaceAllFuel pat n (rest.drop (pat.length - 1))
    else c :: replaceAllFuel pat n rest

/-- Python `s.replace(pat, '')`. -/
def replaceAll (s pat : List Char) : List Char :=
  if pat.isEmpty then s else replaceAllFuel pat s.length s

/-- The helper `key_is_match` inside `EphemeralDocument.select`
(ephemeraldb.py lines 388-398): a stored key matches a selected key when
they are equal, or when the stored key starts with the selected key and,
after deleting every occurrence of the selected key, the first remaining
character is `"."` — `IndexError` when nothing remains (this happens for a
stored key that is a repetition of the selected key, e.g. `"aa"` against
`"a"`). -/
def key_is_match (key selKey : Key) : Except DBError Bool :=
  if key = selKey then .ok true
  else if selKey.isPrefixOf key then
    match replaceAll key selKey with
    | [] => .error .indexError
    | c :: _ => .ok (c == '.')
  else .ok false

/-- The inner loop of `select`: scan every selected key (no early exit),
keeping the stored key as soon as one truthy selector matches it; an
`IndexError` raised by `key_is_match` for a truthy selector propagates. -/
def selInner (key : Key) : Doc → Except DBError Bool
  | [] => .ok false
  | (selKey, inc) :: rest =>
    if pyTruthy inc then
      match key_is_match key selKey with
      | .error e => .error e
      | .ok b =>
        match selInner key rest with
        | .error e => .error e
        | .ok r => .ok (b || r)
    else selInner key rest

/-- The outer loop of `select`: walk the flattened document in order and
collect into `sel` the pairs whose key some truthy selector matches. -/
def selOuter (ks : Doc) (sel : Doc) : Doc → Except DBError Doc
  | [] => .ok sel
  | (k, v) :: rest =>
    match selInner k ks with
    | .error e => .error e
    | .ok true => selOuter ks (alistSet sel k v) rest
    | .ok false => selOuter ks sel rest

/-- Python `sum(...)` over spec values: integers add up, anything else is a
`TypeError`. -/
def sumInts : Int → List Value → Except DBError Int
  | acc, [] => .ok acc
  | acc, .int n :: rest => sumInts (acc + n) rest
  | _, _ :: _ => .error .typeError

/-- `keys.setdefault('_id', 1)`. -/
def setdefaultId (ks : Doc) : Doc :=
  if (alistGet ks idChars).isSome then ks else ks ++ [(idChars, .int 1)]

/-- `EphemeralDocument._validate_keys` on the flattened spec (ephemeraldb.py
lines 335-361): the spec `{"_id": 1}` passes through; otherwise the values
of the non-`_id` keys are summed and the sum must be `0` or the number of
those keys, else *invalid-selection*; when the sum is `0` the inclusion set
is inverted to the unnamed document keys (with `_id` carried over,
defaulting to `1`); finally `_id` defaults to `1`. -/
def _validate_keys (data ks : Doc) : Except DBError Doc :=
  if ks.length = 1 ∧ (alistGet ks idChars).getD (.int 0) = .int 1 then .ok ks
  else
    let kwid := ks.filter (fun p => p.1 ≠ idChars)
    match sumInts 0 (kwid.map Prod.snd) with
    | .error e => .error e
    | .ok n =>
      if n ≠ 0 ∧ n ≠ (kwid.length : Int) then .error .invalidSelection
      else
        let ks' :=
          if n = 0 then
            alistSet
              ((data.filter (fun p => (alistGet ks p.1).isNone)).map
                (fun p => (p.1, Value.int 1)))
              idChars ((alistGet ks idChars).getD (.int 1))
          else ks
        .ok (setdefaultId ks')

/-- `_unflatten` under the error monad: the TypeError of a path conflict
propagates. -/
def unflattenE (d : Doc) : Except DBError Doc :=
  match _unflatten d with
  | some r => .ok r
  | none => .error .typeError

/-- `EphemeralDocument.select` over the flattened data (ephemeraldb.py
lines 363-405): a falsy spec (`None` or `{}`) returns the full unflattened
document; otherwise the spec is flattened, validated, the matching pairs
are collected and the selection is unflattened. -/
def select (data : Doc) (keys : Option Doc) : Except DBError Doc :=
  match keys with
  | none => unflattenE data
  | some ks =>
    if ks.isEmpty then unflattenE data
    else
      match _validate_keys data (_flatten ks) with
      | .error e => .error e
      | .ok vk =>
        match selOuter vk [] data with
        | .error e => .error e
        | .ok sel => unflattenE sel

/-- `EphemeralDocument.update` (ephemeraldb.py lines 407-418): take
`data["$set"]` when present (a non-dict `$set` payload makes the inner
`_flatten` fail with a `TypeError`), else `data` itself; flatten it and
merge it into the stored flat map. -/
def docUpdate (d : Doc) (u : Doc) : Except DBError Doc :=
  match alistGet u setChars with
  | some (.dict s) => .ok (dictMerge d (_flatten s))
  | some _ => .error .typeError
  | none => .ok (dictMerge d (_flatten u))

/-- `EphemeralDocument.to_dict`: `select({})`. -/
def docToDict (d : Doc) : Except DBError Doc := select d (some [])

/-- The key tuple of an index (`tuple(key for (key, order) in keys)` — the
sort orders are discarded by `create_index`, so the model takes the already
normalized tuple of field names). -/
abbrev IndexKeys := List Key

/-- The set of observed value tuples of a unique index (a Python `set`,
modelled as a duplicate-free list with membership-tested insertion). -/
abbrev IndexSet := List (List Value)

/-- `EphemeralCollection` state: the ordered documents (each one stored in
flattened form, as `EphemeralDocument._data`) and the mapping from unique
index key tuple to its set of observed value tuples. -/
structure Collection where
  documents : List Doc
  indexes : List (IndexKeys × IndexSet)
deriving DecidableEq, Repr

/-- `tuple(document[key] for key in index)`: `KeyError` on a missing
field. -/
def tupleOf (d : Doc) (idx : IndexKeys) : Except DBError (List Value) :=
  match idx with
  | [] => .ok []
  | k :: rest =>
    match alistGet d k with
    | none => .error (.keyError k)
    | some v =>
      match tupleOf d rest with
      | .error e => .error e
      | .ok vs => .ok (v :: vs)

/-- The loop of `EphemeralCollection._validate_index` over a list of
indexes paired with their current value sets: *duplicate-key* as soon as
the document's value tuple for an index is already present
(ephemeraldb.py lines 166-182). -/
def validateAgainst : List (IndexKeys × IndexSet) → Doc → Except DBError Unit
  | [], _ => .ok ()
  | (idx, s) :: rest, d =>
    match tupleOf d idx with
    | .error e => .error e
    | .ok t =>
      if t ∈ s then .error (.duplicateKey idx t)
      else validateAgainst rest d

/-- `_validate_index(document)` with the default `indexes=None`: validate
against every tracked index. -/
def _validate_index (c : Collection) (d : Doc) : Except DBError Unit :=
  validateAgainst c.indexes d

/-- Python `set.add`. -/
def setInsert (s : IndexSet) (t : List Value) : IndexSet :=
  if t ∈ s then s else s ++ [t]

/-- The loop of `EphemeralCollection._register_keys`: add the document's
value tuple to every index set, in index order; a `KeyError` while building
a tuple leaves the earlier sets updated and the later ones untouched
(ephemeraldb.py lines 148-151). -/
def registerLoop (d : Doc) : List (IndexKeys × IndexSet) →
    List (IndexKeys × IndexSet) × Option DBError
  | [] => ([], none)
  | (idx, s) :: rest =>
    match tupleOf d idx with
    | .error e => ((idx, s) :: rest, some e)
    | .ok t =>
      match registerLoop d rest with
      | (rest', r) => ((idx, setInsert s t) :: rest', r)

/-- `getIdInt`: the stored `_id` of a flattened document, as the integer the
`max` of `_get_new_id` needs (`KeyError` when absent, `TypeError` when the
ids cannot be compared and bumped as integers). -/
def getIdInt (d : Doc) : Except DBError Int :=
  match alistGet d idChars with
  | none => .error (.keyError idChars)
  | some (.int n) => .ok n
  | some _ => .error .typeError

/-- Maximum of a non-empty list of integers, accumulator style. -/
def maxList (n : Int) : List Int → Int
  | [] => n
  | m :: ms => maxList (max n m) ms

/-- The sequence of integer ids consumed by the `max` generator of
`_get_new_id`, failing at the first document whose `_id` is missing or not
an integer. -/
def idsOfDocs : List Doc → Except DBError (List Int)
  | [] => .ok []
  | d :: ds =>
    match getIdInt d with
    | .error e => .error e
    | .ok n =>
      match idsOfDocs ds with
      | .error e => .error e
      | .ok ns => .ok (n :: ns)

/-- `EphemeralCollection._get_new_id` (ephemeraldb.py lines 184-189):
`max(d['_id'] for d in self._documents) + 1`, or `1` for an empty
collection. -/
def _get_new_id (c : Collection) : Except DBError Int :=
  match c.documents with
  | [] => .ok 1
  | d :: ds =>
    match idsOfDocs (d :: ds) with
    | .error e => .error e
    | .ok [] => .ok 1
    | .ok (n :: ns) => .ok (maxList n ns + 1)

/-- One iteration of the `insert_many` loop (ephemeraldb.py lines 203-209)
on one input record: assign a fresh `_id` into the record itself when the
record has none, wrap the record into a document (flatten it), validate it
against every tracked index, append it, register its keys.  Returns the
collection, the record as the caller sees it after the call (Python
mutates it in place), and the raised error if any. -/
def insertStep (c : Collection) (doc : Doc) : Collection × Doc × Option DBError :=
  match (if (alistGet doc idChars).isSome then Except.ok doc
         else Except.map (fun i => doc ++ [(idChars, Value.int i)]) (_get_new_id c)) with
  | .error e => (c, doc, some e)
  | .ok doc' =>
    match _validate_index c (_flatten doc') with
    | .error e => (c, doc', some e)
    | .ok _ =>
      match registerLoop (_flatten doc') c.indexes with
      | (idx', r) =>
        ({ documents := c.documents ++ [_flatten doc'], indexes := idx' }, doc', r)

/-- The `insert_many` loop over the input records: on an error the earlier
records stay inserted (and mutated), the later records are untouched. -/
def insertLoop (c : Collection) : List Doc → Collection × List Doc × Option DBError
  | [] => (c, [], none)
  | d :: ds =>
    match insertStep c d with
    | (c', d', some e) => (c', d' :: ds, some e)
    | (c', d', none) =>
      match insertLoop c' ds with
      | (c'', ds', r) => (c'', d' :: ds', r)

/-- `EphemeralCollection.insert_many` (ephemeraldb.py lines 191-211):
returns `len(documents)` on success; on an error the state of the
collection and of the caller's records at the moment of the raise is
returned alongside. -/
def insert_many (c : Collection) (docs : List Doc) :
    Collection × List Doc × Except DBError Nat :=
  match insertLoop c docs with
  | (c', docs', none) => (c', docs', .ok docs.length)
  | (c', docs', some e) => (c', docs', .error e)

/-- The scan of `create_index` over the existing documents, building the
new index's value set: *duplicate-key* stops the scan, keeping the set
built so far (ephemeraldb.py lines 144-146). -/
def indexScan (keys : IndexKeys) : List Doc → IndexSet → IndexSet × Option DBError
  | [], s => (s, none)
  | d :: ds, s =>
    match tupleOf d keys with
    | .error e => (s, some e)
    | .ok t =>
      if t ∈ s then (s, some (.duplicateKey keys t))
      else indexScan keys ds (setInsert s t)

/-- `EphemeralCollection.create_index` (ephemeraldb.py lines 131-146): only
a unique index not yet tracked is created; the scan's partially built value
set stays in the collection even when the scan fails. -/
def create_index (c : Collection) (keys : IndexKeys) (unique : Bool) :
    Collection × Option DBError :=
  if unique ∧ (alistGet c.indexes keys).isNone then
    match indexScan keys c.documents [] with
    | (s, r) => ({ c with indexes := c.indexes ++ [(keys, s)] }, r)
  else (c, none)

/-- `EphemeralCollection.__init__`: no documents, and only the `_id` unique
index (created through `create_index`). -/
def emptyCollection : Collection :=
  (create_index { documents := [], indexes := [] } [idChars] true).1

/-- The filter loop of `find` (ephemeraldb.py lines 153-164): keep, in
insertion order, the projection of every document matching the query. -/
def findLoop (q sel : Option Doc) : List Doc → Except DBError (List Doc)
  | [] => .ok []
  | d :: ds =>
    match docMatch d q with
    | .error e => .error e
    | .ok false => findLoop q sel ds
    | .ok true =>
      match select d sel with
      | .error e => .error e
      | .ok p =>
        match findLoop q sel ds with
        | .error e => .error e
        | .ok rest => .ok (p :: rest)

/-- `EphemeralCollection.find`. -/
def find (c : Collection) (q sel : Option Doc) : Except DBError (List Doc) :=
  findLoop q sel c.documents

/-- `EphemeralCollection.count`: `len(self.find(query))` (ephemeraldb.py
lines 244-250). -/
def count (c : Collection) (q : Option Doc) : Except DBError Nat :=
  match find c q none with
  | .error e => .error e
  | .ok docs => .ok docs.length

/-- The loop of `update_many` (ephemeraldb.py lines 213-228): update in
place every document matching the query, counting them; an error
(from `match` or from the update payload) aborts the loop, keeping the
documents updated so far. -/
def updateLoop (q : Option Doc) (u : Doc) : List Doc → List Doc × Nat × Option DBError
  | [] => ([], 0, none)
  | d :: ds =>
    match docMatch d q with
    | .error e => (d :: ds, 0, some e)
    | .ok false =>
      match updateLoop q u ds with
      | (ds', n, r) => (d :: ds', n, r)
    | .ok true =>
      match docUpdate d u with
      | .error e => (d :: ds, 0, some e)
      | .ok d' =>
        match updateLoop q u ds with
        | (ds', n, r) => (d' :: ds', n + 1, r)

/-- `EphemeralCollection.update_many`: no index is re-validated after the
mutation. -/
def update_many (c : Collection) (q : Option Doc) (u : Doc) :
    Collection × Except DBError Nat :=
  match updateLoop q u c.documents with
  | (ds', n, none) => ({ c with documents := ds' }, .ok n)
  | (ds', _, some e) => ({ c with documents := ds' }, .error e)

/-- The partition loop of `delete_many` (ephemeraldb.py lines 252-268). -/
def deleteLoop (q : Option Doc) : List Doc → Except DBError (List Doc × Nat)
  | [] => .ok ([], 0)
  | d :: ds =>
    match docMatch d q with
    | .error e => .error e
    | .ok b =>
      match deleteLoop q ds with
      | .error e => .error e
      | .ok (r, n) => .ok (if b then (r, n + 1) else (d :: r, n))

/-- `EphemeralCollection.delete_many`: rebuild the retained sequence and
return the number removed; the retained list replaces `_documents` only
after the whole scan, so an error leaves the collection unchanged; the
index value sets are untouched either way. -/
def delete_many (c : Collection) (q : Option Doc) : Collection × Except DBError Nat :=
  match deleteLoop q c.documents with
  | .error e => (c, .error e)
  | .ok (ds', n) => ({ c with documents := ds' }, .ok n)

/-- `EphemeralCollection.drop`: all documents and all indexes are
discarded. -/
def dropCollection (_ : Collection) : Collection :=
  { documents := [], indexes := [] }

/-- `EphemeralDB` state: the `defaultdict` from collection name to
collection. -/
structure EphemeralDB where
  db : List (Key × Collection)
deriving DecidableEq, Repr

/-- `self._db[collection_name]` on the `defaultdict`: an empty collection
is created on first reference to a name. -/
def getCollection (d : EphemeralDB) (name : Key) : Collection × EphemeralDB :=
  match alistGet d.db name with
  | some c => (c, d)
  | none => (emptyCollection, ⟨d.db ++ [(name, emptyCollection)]⟩)

/-- Store back a collection state under its name (the Python collection
object is mutated in place; the functional model writes it back). -/
def setCollection (d : EphemeralDB) (name : Key) (c : Collection) : EphemeralDB :=
  ⟨alistSet d.db name c⟩

/-- `EphemeralDB.read` (ephemeraldb.py lines 67-77): delegate to `find`. -/
def dbRead (d : EphemeralDB) (name : Key) (q sel : Option Doc) :
    EphemeralDB × Except DBError (List Doc) :=
  match getCollection d name with
  | (c, d1) => (d1, find c q sel)

/-- `EphemeralDB.write` (ephemeraldb.py lines 47-65) for a single record
`data`: without a query, insert it (the Python wrapper puts a lone dict
into a one-element batch); with a query, `update_many(query, {"$set":
data})`.  The collection state at the moment of an error is written
back, as the in-place Python mutation leaves it. -/
def dbWrite (d : EphemeralDB) (name : Key) (data : Doc) (query : Option Doc) :
    EphemeralDB × Except DBError Nat :=
  match getCollection d name with
  | (c, d1) =>
    match query with
    | none =>
      match insert_many c [data] with
      | (c', _, r) => (setCollection d1 name c', r)
    | some q =>
      match update_many c q [(setChars, .dict data)] with
      | (c', r) => (setCollection d1 name c', r)

/-- `EphemeralDB.read_and_write` (ephemeraldb.py lines 79-94): read the
documents matching `query`; `None` (here `.ok none`) when there are none;
otherwise update by the first found document's concrete `_id` and re-read
by that `_id`.  Note that the `selection` parameter is accepted but never
used by the Python body: the final `self.read(collection_name, id_query)`
passes no selection. -/
def read_and_write (d : EphemeralDB) (name : Key) (query : Doc) (data : Doc)
    (selection : Option Doc) : EphemeralDB × Except DBError (Option Doc) :=
  match getCollection d name with
  | (c, d1) =>
    match find c (some query) none with
    | .error e => (d1, .error e)
    | .ok [] => (d1, .ok none)
    | .ok (first :: _) =>
      match alistGet first idChars with
      | none => (d1, .error (.keyError idChars))
      | some idv =>
        match dbWrite d1 name data (some [(idChars, idv)]) with
        | (d2, .error e) => (d2, .error e)
        | (d2, .ok _) =>
          match dbRead d2 name (some [(idChars, idv)]) none with
          | (d3, .error e) => (d3, .error e)
          | (d3, .ok []) => (d3, .error .indexError)
          | (d3, .ok (u :: _)) => (d3, .ok (some u))

instance {ε α : Type} [DecidableEq ε] [DecidableEq α] : DecidableEq (Except ε α) :=
  fun a b =>
    match a, b with
    | .ok x, .ok y =>
      if h : x = y then isTrue (by rw [h]) else isFalse (fun hc => h (Except.ok.inj hc))
    | .error x, .error y =>
      if h : x = y then isTrue (by rw [h]) else isFalse (fun hc => h (Except.error.inj hc))
    | .ok _, .error _ => isFalse (fun hc => Except.noConfusion hc)
    | .error _, .ok _ => isFalse (fun hc => Except.noConfusion hc)

/-- The public collection operations of the claim "after any sequence of
public operations", without `update_many` and `drop` (see the `C3`
theorems): each one is applied through the state it leaves behind,
error or not. -/
inductive DBOp where
  | insert (docs : List Doc)
  | delete (q : Option Doc)
  | createIdx (keys : IndexKeys) (unique : Bool)
  | findQ (q : Option Doc) (sel : Option Doc)

/-- The collection state an operation leaves behind (`find` reads only). -/
def applyOp (c : Collection) : DBOp → Collection
  | .insert ds => (insert_many c ds).1
  | .delete q => (delete_many c q).1
  | .createIdx k u => (create_index c k u).1
  | .findQ _ _ => c

/-- Run a sequence of operations from a starting state. -/
def runOps (c : Collection) : List DBOp → Collection
  | [] => c
  | op :: ops => runOps (applyOp c op) ops

/-- The `_id` slots of the stored documents, in insertion order. -/
def idsOf (c : Collection) : List (Option Value) :=
  c.documents.map (fun d => alistGet d idChars)

/-- Specification-side counterpart of `find` for the refinement claim `C5`:
the documents whose `match` is `True`, in stored order. -/
def matchedDocs (c : Collection) (q : Option Doc) : List Doc :=
  c.documents.filter (fun d => docMatch d q == Except.ok true)

/-- Project every document of a list through `select`, stopping at the
first error. -/
def projectAll (sel : Option Doc) : List Doc → Except DBError (List Doc)
  | [] => .ok []
  | d :: ds =>
    match select d sel with
    | .error e => .error e
    | .ok p =>
      match projectAll sel ds with
      | .error e => .error e
      | .ok rest => .ok (p :: rest)

/-- Specification-side `find`: filter by `match`, keep insertion order,
project each survivor through `select`. -/
def findSpec (c : Collection) (q sel : Option Doc) : Except DBError (List Doc) :=
  projectAll sel (matchedDocs c q)

/-- The spec's *mixing* condition on a flattened projection spec: some
field other than `_id` is assigned `0` and another field other than `_id`
is assigned `1`. -/
def mixesSelection (ks : Doc) : Bool :=
  (ks.any fun p => decide (p.1 ≠ idChars) && decide (p.2 = Value.int 0)) &&
  (ks.any fun p => decide (p.1 ≠ idChars) && decide (p.2 = Value.int 1))

/-- All values of a flattened projection spec are the integers `0` or
`1`. -/
def values01 (ks : Doc) : Bool :=
  ks.all fun p => decide (p.2 = Value.int 0) || decide (p.2 = Value.int 1)

/-- The flattened form of a `select` argument (`None` flattens to
nothing). -/
def flatSpec : Option Doc → Doc
  | none => []
  | some ks => _flatten ks

/-- Is a value a Python dict? -/
def isDictVal : Value → Bool
  | .dict _ => true
  | _ => false

theorem splitOnDot_no_dot (k : Key) (hk : goodKey k = true) : splitOnDot k = [k] := by
  induction k with
  | nil => rfl
  | cons c cs ih =>
    simp only [goodKey, List.all_cons, Bool.and_eq_true, Bool.not_eq_eq_eq_not,
      Bool.not_true, beq_eq_false_iff_ne, ne_eq] at hk
    have ih' := ih (by simpa [goodKey] using hk.2)
    simp [splitOnDot, hk.1, ih']

theorem splitOnDot_append (k s : Key) (hk : goodKey k = true) :
    splitOnDot (k ++ '.' :: s) = k :: splitOnDot s := by
  induction k with
  | nil => simp [splitOnDot]
  | cons c cs ih =>
    simp only [goodKey, List.all_cons, Bool.and_eq_true, Bool.not_eq_eq_eq_not,
      Bool.not_true, beq_eq_false_iff_ne, ne_eq] at hk
    have ih' := ih (by simpa [goodKey] using hk.2)
    simp [splitOnDot, hk.1, ih']

theorem splitOnDot_ne_nil (s : Key) : ∃ q qs, splitOnDot s = q :: qs := by
  match s with
  | [] => exact ⟨[], [], rfl⟩
  | c :: cs =>
    obtain ⟨q, qs, h⟩ := splitOnDot_ne_nil cs
    by_cases hc : c = '.'
    · exact ⟨[], splitOnDot cs, by simp [splitOnDot, hc]⟩
    · exact ⟨c :: q, qs, by simp [splitOnDot, hc, h]⟩

theorem alistGet_set_self {α β : Type} [DecidableEq α] (d : List (α × β)) (k : α) (v : β) :
    alistGet (alistSet d k v) k = some v := by
  induction d with
  | nil => simp [alistGet, alistSet]
  | cons p rest ih =>
    by_cases hp : p.1 = k
    · simp [alistSet, hp, alistGet]
    · simp [alistSet, hp, alistGet, ih]

theorem alistSet_set_self {α β : Type} [DecidableEq α] (d : List (α × β)) (k : α) (v w : β) :
    alistSet (alistSet d k v) k w = alistSet d k w := by
  induction d with
  | nil => simp [alistSet]
  | cons p rest ih =>
    by_cases hp : p.1 = k
    · simp [alistSet, hp]
    · simp [alistSet, hp, ih]

theorem alistSet_absent {α β : Type} [DecidableEq α] (d : List (α × β)) (k : α) (v : β)
    (h : alistGet d k = none) : alistSet d k v = d ++ [(k, v)] := by
  induction d with
  | nil => simp [alistSet]
  | cons p rest ih =>
    by_cases hp : p.1 = k
    · simp [alistGet, hp] at h
    · simp only [alistGet, hp, if_neg hp] at h
      simp [alistSet, hp, ih h]

theorem alistGet_append_left {α β : Type} [DecidableEq α] (d d' : List (α × β)) (k : α)
    (v : β) (h : alistGet d k = some v) : alistGet (d ++ d') k = some v := by
  induction d with
  | nil => simp [alistGet] at h
  | cons p rest ih =>
    by_cases hp : p.1 = k
    · simp only [alistGet, if_pos hp] at h
      simp [alistGet, hp, h]
    · simp only [alistGet, if_neg hp] at h
      simp [alistGet, hp, ih h]

theorem setPath_from_nil (ps : List (List Char)) (p : List Char) (v : Value) :
    ∃ x, setPath [] (p :: ps) v = some [(p, x)] := by
  match ps with
  | [] => exact ⟨v, by simp [setPath, alistSet]⟩
  | q :: qs =>
    obtain ⟨x, hx⟩ := setPath_from_nil qs q v
    exact ⟨.dict [(q, x)], by simp [setPath, alistGet, hx, alistSet]⟩

/-- `C9`, counterexample.  The claim says `unflatten` raises an
internal-consistency error whenever the flat map has two keys one of which
is a strict dotted prefix of the other.  On the flat map
`{"a.b": 2, "a": 1}` the code raises nothing: it returns `{"a": 1}`,
silently overwriting the structure built for `"a.b"`. -/
theorem C9_counterexample :
    _unflatten [(['a', '.', 'b'], .int 2), (['a'], .int 1)] = some [(['a'], .int 1)] := by
  rfl

/-- `C9`, amended claim: `_unflatten` performs no conflict validation.  For
a flat map holding a key `k` (without dots) and the longer key `k ++ "." ++
s`, the processing order decides the outcome: when the short key comes
second its assignment silently overwrites the record built for the long
key, yielding `{k: v}` with no error; when the short key comes first and
its value is not a dict, the later descent through it fails with a
`TypeError` (`none`), which is a dynamic-type crash, not a raised
internal-consistency error. -/
theorem C9_amended (k s : Key) (v w : Value) (hk : goodKey k = true)
    (hv : isDictVal v = false) :
    _unflatten [(k ++ '.' :: s, w), (k, v)] = some [(k, v)] ∧
      _unflatten [(k, v), (k ++ '.' :: s, w)] = none := by
  obtain ⟨q, qs, hsp⟩ := splitOnDot_ne_nil s
  constructor
  · obtain ⟨x, hx⟩ := setPath_from_nil (splitOnDot s) k w
    have h1 : setPath [] (splitOnDot (k ++ '.' :: s)) w = some [(k, x)] := by
      rw [splitOnDot_append k s hk]
      exact hx
    have h2 : setPath [(k, x)] (splitOnDot k) v = some [(k, v)] := by
      rw [splitOnDot_no_dot k hk]
      simp [setPath, alistSet]
    simp [_unflatten, unflattenFold, h1, h2]
  · have h1 : setPath [] (splitOnDot k) v = some [(k, v)] := by
      rw [splitOnDot_no_dot k hk]
      simp [setPath, alistSet]
    have h2 : setPath [(k, v)] (splitOnDot (k ++ '.' :: s)) w = none := by
      rw [splitOnDot_append k s hk, hsp]
      cases v with
      | dict d => simp [isDictVal] at hv
      | int n => simp [setPath, alistGet]
      | str t => simp [setPath, alistGet]
      | bool b => simp [setPath, alistGet]
      | null => simp [setPath, alistGet]
      | list l => simp [setPath, alistGet]
    simp [_unflatten, unflattenFold, h1, h2]

/-- `C9`, witness for the amended claim at `k = "a"`, `s = "b"`, `v = 1`,
`w = 2`. -/
theorem C9_amended_witness :
    _unflatten [(['a', '.', 'b'], .int 2), (['a'], .int 1)] = some [(['a'], .int 1)] ∧
      _unflatten [(['a'], .int 1), (['a', '.', 'b'], .int 2)] = none :=
  C9_amended ['a'] ['b'] (.int 1) (.int 2) (by decide) (by decide)

theorem alistGet_append_none {α β : Type} [DecidableEq α] (d d' : List (α × β)) (k : α)
    (h : alistGet d k = none) : alistGet (d ++ d') k = alistGet d' k := by
  induction d with
  | nil => simp
  | cons p rest ih =>
    by_cases hp : p.1 = k
    · simp [alistGet, hp] at h
    · simp only [alistGet, if_neg hp] at h
      simp [alistGet, hp, ih h]

theorem unflattenFold_append (acc : Doc) (xs ys : Doc) :
    unflattenFold acc (xs ++ ys) =
      match unflattenFold acc xs with
      | none => none
      | some a => unflattenFold a ys := by
  induction xs generalizing acc with
  | nil => simp [unflattenFold]
  | cons x rest ih =>
    match x with
    | (k, v) =>
      simp only [List.cons_append, unflattenFold]
      cases setPath acc (splitOnDot k) v with
      | none => rfl
      | some acc' => exact ih acc'

mutual
theorem flattenVal_ne_nil : ∀ (k : Key) (v : Value), flattenVal k v ≠ []
  | _, .dict [] => by simp [flattenVal]
  | k, .dict (p :: ps) => by
      have h := flattenDoc_ne_nil (p :: ps) (by simp)
      simp only [flattenVal, ne_eq, List.map_eq_nil_iff]
      exact h
  | _, .int _ => by simp [flattenVal]
  | _, .str _ => by simp [flattenVal]
  | _, .bool _ => by simp [flattenVal]
  | _, .null => by simp [flattenVal]
  | _, .list _ => by simp [flattenVal]

theorem flattenDoc_ne_nil : ∀ (r : Doc), r ≠ [] → flattenDoc r ≠ []
  | (k, v) :: rest, _ => by
      have h := flattenVal_ne_nil k v
      simp only [flattenDoc, ne_eq, List.append_eq_nil]
      exact fun hc => h hc.1
end

/-- The prefixed-fold lemma behind the `C2` round trip: folding the entries
`es` with their keys prefixed by `k ++ "."` into an accumulator whose entry
at `k` is the sub-record `sub` (or absent, with `sub = []`) is folding `es`
into `sub` and storing the outcome back at `k`. -/
theorem unflattenFold_prefixed (k : Key) (hk : goodKey k = true) :
    ∀ (es : Doc) (e : Key × Value) (acc sub sub' : Doc),
      (alistGet acc k = some (.dict sub) ∨ (alistGet acc k = none ∧ sub = [])) →
      unflattenFold sub (e :: es) = some sub' →
      unflattenFold acc ((e :: es).map (fun kv => (k ++ '.' :: kv.1, kv.2))) =
        some (alistSet acc k (.dict sub')) := by
  intro es
  induction es with
  | nil =>
    intro e acc sub sub' hacc hfold
    match e with
    | (ek, ev) =>
      obtain ⟨q, qs, hsp⟩ := splitOnDot_ne_nil ek
      simp only [unflattenFold] at hfold
      cases hsetp : setPath sub (splitOnDot ek) ev with
      | none => rw [hsetp] at hfold; simp [unflattenFold] at hfold
      | some s1 =>
        rw [hsetp] at hfold
        simp only [unflattenFold, Option.some.injEq] at hfold
        subst hfold
        have hsplit : splitOnDot (k ++ '.' :: ek) = k :: splitOnDot ek :=
          splitOnDot_append k ek hk
        have hstep : setPath acc (k :: splitOnDot ek) ev =
            some (alistSet acc k (.dict s1)) := by
          rw [hsp] at hsetp ⊢
          rcases hacc with ⟨h1⟩ | ⟨h1, h2⟩
          · simp [setPath, h1, hsetp]
          · subst h2
            simp [setPath, h1, hsetp]
        simp [unflattenFold, hsplit, hstep]
  | cons e' es' ih =>
    intro e acc sub sub' hacc hfold
    match e with
    | (ek, ev) =>
      obtain ⟨q, qs, hsp⟩ := splitOnDot_ne_nil ek
      simp only [unflattenFold] at hfold
      cases hsetp : setPath sub (splitOnDot ek) ev with
      | none => rw [hsetp] at hfold; simp at hfold
      | some s1 =>
        rw [hsetp] at hfold
        have hfold' : unflattenFold s1 (e' :: es') = some sub' := hfold
        have hsplit : splitOnDot (k ++ '.' :: ek) = k :: splitOnDot ek :=
          splitOnDot_append k ek hk
        have hstep : setPath acc (k :: splitOnDot ek) ev =
            some (alistSet acc k (.dict s1)) := by
          rw [hsp] at hsetp ⊢
          rcases hacc with ⟨h1⟩ | ⟨h1, h2⟩
          · simp [setPath, h1, hsetp]
          · subst h2
            simp [setPath, h1, hsetp]
        have hrec := ih (e' : Key × Value) (alistSet acc k (.dict s1)) s1 sub'
          (Or.inl (alistGet_set_self acc k (.dict s1))) hfold'
        have hone : unflattenFold acc
            (((ek, ev) :: e' :: es').map (fun kv => (k ++ '.' :: kv.1, kv.2))) =
            unflattenFold (alistSet acc k (.dict s1))
              ((e' :: es').map (fun kv => (k ++ '.' :: kv.1, kv.2))) := by
          show (match setPath acc (splitOnDot (k ++ '.' :: ek)) ev with
            | none => none
            | some a =>
              unflattenFold a ((e' :: es').map (fun kv => (k ++ '.' :: kv.1, kv.2)))) =
            unflattenFold (alistSet acc k (.dict s1))
              ((e' :: es').map (fun kv => (k ++ '.' :: kv.1, kv.2)))
          rw [hsplit, hstep]
        rw [hone, hrec, alistSet_set_self]

/-- The combined strong-induction engine for the `C2` round trip: folding
the flattened form of a well-formed value (under a fresh key) or record
into an accumulator extends the accumulator by exactly that binding or
record. -/
theorem roundtrip_aux : ∀ n : Nat,
    (∀ (v : Value) (k : Key) (acc : Doc), sizeOf v < n → goodKey k = true →
      valueWF v = true → alistGet acc k = none →
      unflattenFold acc (flattenVal k v) = some (acc ++ [(k, v)])) ∧
    (∀ (r : Doc) (acc : Doc), sizeOf r < n → docWF r = true →
      (∀ p ∈ r, alistGet acc p.1 = none) →
      unflattenFold acc (flattenDoc r) = some (acc ++ r)) := by
  intro n
  induction n with
  | zero => exact ⟨fun v _ _ h => by omega, fun r _ h => by omega⟩
  | succ n ih =>
    constructor
    · intro v k acc hsz hk hv hacc
      have hleaf : ∀ w : Value, w = v →
          unflattenFold acc [(k, w)] = some (acc ++ [(k, w)]) := by
        intro w _
        simp [unflattenFold, splitOnDot_no_dot k hk, setPath, alistSet_absent acc k w hacc]
      match v with
      | .int m => exact hleaf _ rfl
      | .str s => exact hleaf _ rfl
      | .bool b => exact hleaf _ rfl
      | .null => exact hleaf _ rfl
      | .list l => exact hleaf _ rfl
      | .dict [] => exact hleaf _ rfl
      | .dict (p :: ps) =>
        have hsub : sizeOf (p :: ps) < n := by
          have : sizeOf (Value.dict (p :: ps)) = 1 + sizeOf (p :: ps) := by
            simp
          omega
        have hwf : docWF (p :: ps) = true := by simpa [valueWF] using hv
        have hinner := (ih).2 (p :: ps) [] hsub hwf (by intro p hp; rfl)
        cases hne : flattenDoc (p :: ps) with
        | nil => exact absurd hne (flattenDoc_ne_nil (p :: ps) (by simp))
        | cons e es =>
          rw [hne] at hinner
          have := unflattenFold_prefixed k hk es e acc [] (p :: ps)
            (Or.inr ⟨hacc, rfl⟩) (by simpa using hinner)
          simp only [flattenVal, hne]
          rw [this, alistSet_absent acc k _ hacc]
    · intro r acc hsz hwf hdisj
      match r with
      | [] => simp [flattenDoc, unflattenFold]
      | (k, v) :: rest =>
        simp only [docWF, Bool.and_eq_true, Bool.not_eq_eq_eq_not, Bool.not_true,
          List.any_eq_false] at hwf
        obtain ⟨⟨⟨hk, hnodup⟩, hv⟩, hrest⟩ := hwf
        have hszv : sizeOf v < n := by
          have h1 : sizeOf ((k, v) :: rest) = 1 + sizeOf (k, v) + sizeOf rest := by simp
          have h2 : sizeOf (k, v) = 1 + sizeOf k + sizeOf v := by simp
          omega
        have hszr : sizeOf rest < n := by
          have h1 : sizeOf ((k, v) :: rest) = 1 + sizeOf (k, v) + sizeOf rest := by simp
          omega
        have hval := (ih).1 v k acc hszv hk hv (hdisj (k, v) (by simp))
        have hdisj' : ∀ p ∈ rest, alistGet (acc ++ [(k, v)]) p.1 = none := by
          intro p hp
          have hne : p.1 ≠ k := by
            intro hc
            have := hnodup p hp
            simp [hc] at this
          rw [alistGet_append_none acc [(k, v)] p.1 (hdisj p (by simp [hp]))]
          have hne' : ¬(k = p.1) := fun hc => hne hc.symm
          simp [alistGet, hne']
        have hrec := (ih).2 rest (acc ++ [(k, v)]) hszr hrest hdisj'
        simp only [flattenDoc]
        rw [unflattenFold_append, hval]
        show unflattenFold (acc ++ [(k, v)]) (flattenDoc rest) = some (acc ++ (k, v) :: rest)
        rw [hrec]
        simp

/-- `C2`: for every nested record whose keys (at every dict level) are
duplicate-free and contain no literal `"."`, `unflatten` inverts `flatten`
exactly — so in particular flattening, unflattening and flattening again
reproduces the first flat map. -/
theorem C2_flatten_unflatten_flatten (r : Doc) (hwf : docWF r = true) :
    _unflatten (_flatten r) = some r ∧
      (_unflatten (_flatten r)).map _flatten = some (_flatten r) := by
  have h := (roundtrip_aux (sizeOf r + 1)).2 r [] (by omega) hwf (by intro p hp; rfl)
  have h' : _unflatten (_flatten r) = some r := by
    simpa [_unflatten, _flatten] using h
  exact ⟨h', by rw [h']; rfl⟩

/-- `C2`, witness at the nested record
`{"a": {"b": 3, "c": {}}, "d": 1}`. -/
theorem C2_witness :
    docWF [(['a'], .dict [(['b'], .int 3), (['c'], .dict [])]), (['d'], .int 1)] = true ∧
      (_unflatten (_flatten
          [(['a'], .dict [(['b'], .int 3), (['c'], .dict [])]), (['d'], .int 1)])).map
        _flatten =
        some (_flatten
          [(['a'], .dict [(['b'], .int 3), (['c'], .dict [])]), (['d'], .int 1)]) :=
  ⟨by decide,
    (C2_flatten_unflatten_flatten
      [(['a'], .dict [(['b'], .int 3), (['c'], .dict [])]), (['d'], .int 1)]
      (by decide)).2⟩

/-- The record one `insert_many` iteration leaves in the caller's hands
when the record had no `_id` and the fresh id is `k`: the id is written
into the record itself, whatever happens afterwards (validation failure
included). -/
theorem insertStep_assigns (c : Collection) (doc : Doc) (k : Int)
    (hno : alistGet doc idChars = none) (hid : _get_new_id c = .ok k) :
    (insertStep c doc).2.1 = doc ++ [(idChars, .int k)] := by
  simp only [insertStep, hno, Option.isSome_none, Bool.false_eq_true, if_false, hid,
    Except.map]
  cases hv : _validate_index c (_flatten (doc ++ [(idChars, Value.int k)])) with
  | error e => simp
  | ok u => simp

/-- `insert_many` of a one-record batch hands back exactly the one record
`insertStep` produced. -/
theorem insert_many_single (c : Collection) (doc : Doc) :
    (insert_many c [doc]).2.1 = [(insertStep c doc).2.1] := by
  simp only [insert_many, insertLoop]
  rcases h : insertStep c doc with ⟨c', d', r⟩
  cases r with
  | none => simp
  | some e => simp

/-- `C4`: a record without `_id` is assigned `_id = 1` when the collection
is empty, and `_id = max(stored ids) + 1` otherwise (the hypothesis names
the list of stored integer ids; `maxList i is` is their maximum). -/
theorem C4_auto_id (c : Collection) (doc : Doc) (ids : List Int)
    (hids : idsOfDocs c.documents = Except.ok ids)
    (hno : alistGet doc idChars = none) :
    (c.documents = [] →
      _get_new_id c = .ok 1 ∧
      (insert_many c [doc]).2.1 = [doc ++ [(idChars, .int 1)]]) ∧
    (∀ i is, ids = i :: is →
      _get_new_id c = .ok (maxList i is + 1) ∧
      (insert_many c [doc]).2.1 = [doc ++ [(idChars, .int (maxList i is + 1))]]) := by
  constructor
  · intro hempty
    have h1 : _get_new_id c = .ok 1 := by simp [_get_new_id, hempty]
    exact ⟨h1, by rw [insert_many_single, insertStep_assigns c doc 1 hno h1]⟩
  · intro i is hcons
    subst hcons
    match hdocs : c.documents with
    | [] => rw [hdocs] at hids; simp [idsOfDocs] at hids
    | d :: ds =>
      rw [hdocs] at hids
      have h1 : _get_new_id c = .ok (maxList i is + 1) := by
        simp [_get_new_id, hdocs, hids]
      exact ⟨h1, by rw [insert_many_single, insertStep_assigns c doc _ hno h1]⟩

/-- `C4`, witness: inserting `{"a": 5}` into the empty collection assigns
`_id = 1`; inserting `{"y": 7}` into a collection whose ids are `1, 2, 3`
assigns `_id = 4`. -/
theorem C4_witness :
    (insert_many emptyCollection [[(['a'], .int 5)]]).2.1 =
      [[(['a'], .int 5), (idChars, .int 1)]] ∧
    (insert_many
        (insert_many emptyCollection
          [[(['x'], .int 3)], [(['x'], .int 5)], [(['x'], .int 9)]]).1
        [[(['y'], .int 7)]]).2.1 =
      [[(['y'], .int 7), (idChars, .int 4)]] := by
  constructor
  · have h := (C4_auto_id emptyCollection [(['a'], .int 5)] [] (by rfl) (by rfl)).1 rfl
    rw [h.2]
    rfl
  · have h := ((C4_auto_id
      (insert_many emptyCollection
        [[(['x'], .int 3)], [(['x'], .int 5)], [(['x'], .int 9)]]).1
      [(['y'], .int 7)] [1, 2, 3] (by rfl) (by rfl)).2) 1 [2, 3] rfl
    rw [h.2]
    rfl

/-- A successful `insert_many` iteration appends exactly the flattened,
possibly id-augmented record. -/
theorem insertStep_ok_documents (c : Collection) (d : Doc) (c2 : Collection) (d' : Doc)
    (h : insertStep c d = (c2, d', none)) :
    c2.documents = c.documents ++ [_flatten d'] := by
  unfold insertStep at h
  cases hassign : (if (alistGet d idChars).isSome then Except.ok d
      else Except.map (fun i => d ++ [(idChars, Value.int i)]) (_get_new_id c)) with
  | error e => rw [hassign] at h; dsimp only at h; simp [Prod.ext_iff] at h
  | ok doc' =>
    rw [hassign] at h
    dsimp only at h
    cases hv : _validate_index c (_flatten doc') with
    | error e => rw [hv] at h; dsimp only at h; simp [Prod.ext_iff] at h
    | ok u =>
      rw [hv] at h
      dsimp only at h
      rcases hr : registerLoop (_flatten doc') c.indexes with ⟨idx', r⟩
      rw [hr] at h
      dsimp only at h
      simp only [Prod.ext_iff] at h
      obtain ⟨hc2, hd', _⟩ := h
      rw [← hc2, ← hd']

/-- Any `insert_many` iteration only ever appends to the stored documents
(the failure cases leave them unchanged). -/
theorem insertStep_documents_extend (c : Collection) (d : Doc) (c2 : Collection)
    (d' : Doc) (r : Option DBError) (h : insertStep c d = (c2, d', r)) :
    ∃ tail, c2.documents = c.documents ++ tail := by
  unfold insertStep at h
  cases hassign : (if (alistGet d idChars).isSome then Except.ok d
      else Except.map (fun i => d ++ [(idChars, Value.int i)]) (_get_new_id c)) with
  | error e =>
    rw [hassign] at h
    dsimp only at h
    simp only [Prod.ext_iff] at h
    exact ⟨[], by rw [← h.1]; simp⟩
  | ok doc' =>
    rw [hassign] at h
    dsimp only at h
    cases hv : _validate_index c (_flatten doc') with
    | error e =>
      rw [hv] at h
      dsimp only at h
      simp only [Prod.ext_iff] at h
      exact ⟨[], by rw [← h.1]; simp⟩
    | ok u =>
      rw [hv] at h
      dsimp only at h
      rcases hr : registerLoop (_flatten doc') c.indexes with ⟨idx', r'⟩
      rw [hr] at h
      dsimp only at h
      simp only [Prod.ext_iff] at h
      exact ⟨[_flatten doc'], by rw [← h.1]⟩

/-- A fully successful `insert_many` loop appends the flattened forms of
the records it hands back, in order. -/
theorem insertLoop_ok_documents (ds : List Doc) : ∀ (c c' : Collection) (ds' : List Doc),
    insertLoop c ds = (c', ds', none) →
    c'.documents = c.documents ++ ds'.map _flatten := by
  induction ds with
  | nil =>
    intro c c' ds' h
    simp only [insertLoop, Prod.ext_iff] at h
    rw [← h.1, ← h.2.1]
    simp
  | cons d ds ih =>
    intro c c' ds' h
    simp only [insertLoop] at h
    rcases hstep : insertStep c d with ⟨c1, d1, r1⟩
    rw [hstep] at h
    cases r1 with
    | some e => dsimp only at h; simp [Prod.ext_iff] at h
    | none =>
      dsimp only at h
      rcases hloop : insertLoop c1 ds with ⟨c2, ds2, r2⟩
      rw [hloop] at h
      dsimp only at h
      simp only [Prod.ext_iff] at h
      obtain ⟨hc, hds, hr⟩ := h
      subst hr
      have h1 := insertStep_ok_documents c d c1 d1 hstep
      have h2 := ih c1 c2 ds2 hloop
      rw [← hc, h2, h1, ← hds]
      simp

/-- The `insert_many` loop processes a batch prefix first. -/
theorem insertLoop_append (xs ys : List Doc) : ∀ (c : Collection),
    insertLoop c (xs ++ ys) =
      match insertLoop c xs with
      | (c1, xs', none) =>
        match insertLoop c1 ys with
        | (c2, ys', r) => (c2, xs' ++ ys', r)
      | (c1, xs', some e) => (c1, xs' ++ ys, some e) := by
  induction xs with
  | nil =>
    intro c
    rcases h : insertLoop c ys with ⟨c2, ys', r⟩
    simp [insertLoop, h]
  | cons x xs ih =>
    intro c
    simp only [List.cons_append, insertLoop]
    rcases hstep : insertStep c x with ⟨c1, x', r1⟩
    cases r1 with
    | some e => simp
    | none =>
      dsimp only
      show ((insertLoop c1 (xs ++ ys)).1, x' :: (insertLoop c1 (xs ++ ys)).2.1,
        (insertLoop c1 (xs ++ ys)).2.2) = _
      rw [ih c1]
      rcases hloop : insertLoop c1 xs with ⟨c2, xs', r2⟩
      cases r2 with
      | some e => simp
      | none =>
        rcases hys : insertLoop c2 ys with ⟨c3, ys', r3⟩
        simp

/-- `C1`: `insert_many` is fail-fast and not atomic.  If the records `ds`
all pass (each validated against every tracked unique index) and the next
record `bad` fails its validation step with error `e` — for a uniqueness
violation, the *duplicate-key* error — then inserting the batch
`ds ++ [bad]` raises exactly `e`, the records of `ds` remain appended (in
order, flattened) in the collection, and the failing step never removes a
document. -/
theorem C1_insert_not_atomic (c : Collection) (ds : List Doc) (bad : Doc)
    (c' c'' : Collection) (ds' : List Doc) (bad' : Doc) (e : DBError)
    (h1 : insertLoop c ds = (c', ds', none))
    (h2 : insertStep c' bad = (c'', bad', some e)) :
    insert_many c (ds ++ [bad]) = (c'', ds' ++ [bad'], .error e) ∧
    c'.documents = c.documents ++ ds'.map _flatten ∧
    ∃ tail, c''.documents = c'.documents ++ tail := by
  refine ⟨?_, insertLoop_ok_documents ds c c' ds' h1,
    insertStep_documents_extend c' bad c'' bad' (some e) h2⟩
  have hl : insertLoop c (ds ++ [bad]) = (c'', ds' ++ [bad'], some e) := by
    rw [insertLoop_append ds [bad] c, h1]
    dsimp only
    simp only [insertLoop]
    rw [h2]
  simp [insert_many, hl]

/-- `C1`, witness: with a unique index on `"a"`, inserting `{"a": 1}` and
then `{"a": 1}` raises *duplicate-key* on the second record, the first
record stays inserted, and `count({})` afterwards is `1`. -/
theorem C1_witness :
    insert_many (create_index emptyCollection [['a']] true).1
        [[(['a'], .int 1)], [(['a'], .int 1)]] =
      ({ documents := [[(['a'], Value.int 1), (idChars, Value.int 1)]],
         indexes := [([idChars], [[Value.int 1]]), ([['a']], [[Value.int 1]])] },
       [[(['a'], Value.int 1), (idChars, Value.int 1)],
        [(['a'], Value.int 1), (idChars, Value.int 2)]],
       .error (.duplicateKey [['a']] [.int 1])) ∧
    count { documents := [[(['a'], Value.int 1), (idChars, Value.int 1)]],
            indexes := [([idChars], [[Value.int 1]]), ([['a']], [[Value.int 1]])] }
      (some []) = .ok 1 := by
  have h := C1_insert_not_atomic (create_index emptyCollection [['a']] true).1
    [[(['a'], .int 1)]] [(['a'], .int 1)]
    { documents := [[(['a'], Value.int 1), (idChars, Value.int 1)]],
      indexes := [([idChars], [[Value.int 1]]), ([['a']], [[Value.int 1]])] }
    { documents := [[(['a'], Value.int 1), (idChars, Value.int 1)]],
      indexes := [([idChars], [[Value.int 1]]), ([['a']], [[Value.int 1]])] }
    [[(['a'], Value.int 1), (idChars, Value.int 1)]]
    [(['a'], Value.int 1), (idChars, Value.int 2)]
    (.duplicateKey [['a']] [.int 1]) (by rfl) (by rfl)
  exact ⟨h.1, by rfl⟩

/-- The `find` loop is filtering followed by projection, whenever `match`
itself raises no error on any scanned document (a `select` failure aborts
both sides at the same first surviving document). -/
theorem findLoop_filter_project (q sel : Option Doc) : ∀ (docs : List Doc),
    (∀ d ∈ docs, ∃ b, docMatch d q = .ok b) →
    findLoop q sel docs =
      projectAll sel (docs.filter (fun d => docMatch d q == Except.ok true)) := by
  intro docs
  induction docs with
  | nil => intro h; simp [findLoop, projectAll]
  | cons d ds ih =>
    intro h
    obtain ⟨b, hb⟩ := h d (by simp)
    have hrest := ih (fun d' hd' => h d' (by simp [hd']))
    cases b with
    | false =>
      have hfb : (docMatch d q == Except.ok true) = false := by
        rw [hb]; decide
      simp only [findLoop, hb, List.filter_cons, hfb]
      exact hrest
    | true =>
      have hfb : (docMatch d q == Except.ok true) = true := by
        rw [hb]; decide
      simp only [findLoop, hb, List.filter_cons, hfb, if_true, projectAll]
      cases hs : select d sel with
      | error e => simp
      | ok p => rw [hrest]

/-- `C5`: `find(query, selection)` returns exactly the documents whose
`match(query)` is `True`, in insertion order, each projected through
`select(selection)` — stated as equality with the specification-side
filter-then-project combinator `findSpec`, under the hypothesis that
`match` itself raises no error on the stored documents. -/
theorem C5_find_filter_project (c : Collection) (q sel : Option Doc)
    (h : ∀ d ∈ c.documents, ∃ b, docMatch d q = .ok b) :
    find c q sel = findSpec c q sel :=
  findLoop_filter_project q sel c.documents h

/-- `C5`, witness: `find({"x.$gte": 5})` over `{"x": 3}`, `{"x": 5}`,
`{"x": 9}` (inserted in that order) returns exactly the `x = 5` and `x = 9`
documents, in that order. -/
theorem C5_witness :
    find (insert_many emptyCollection
        [[(['x'], .int 3)], [(['x'], .int 5)], [(['x'], .int 9)]]).1
      (some [(['x', '.', '$', 'g', 't', 'e'], .int 5)]) none =
    .ok [[(['x'], .int 5), (idChars, .int 2)], [(['x'], .int 9), (idChars, .int 3)]] := by
  have h := C5_find_filter_project
    (insert_many emptyCollection
      [[(['x'], .int 3)], [(['x'], .int 5)], [(['x'], .int 9)]]).1
    (some [(['x', '.', '$', 'g', 't', 'e'], .int 5)]) none (by decide)
  rw [h]
  rfl

/-- The `delete_many` scan partitions the documents by `match`, keeping
order. -/
theorem deleteLoop_filter (q : Option Doc) : ∀ (docs : List Doc),
    (∀ d ∈ docs, ∃ b, docMatch d q = .ok b) →
    deleteLoop q docs = .ok
      (docs.filter (fun d => !(docMatch d q == Except.ok true)),
       (docs.filter (fun d => docMatch d q == Except.ok true)).length) := by
  intro docs
  induction docs with
  | nil => intro h; simp [deleteLoop]
  | cons d ds ih =>
    intro h
    obtain ⟨b, hb⟩ := h d (by simp)
    have hrest := ih (fun d' hd' => h d' (by simp [hd']))
    cases b with
    | false =>
      have hfb : (docMatch d q == Except.ok true) = false := by
        rw [hb]; decide
      simp [deleteLoop, hb, hrest, List.filter_cons, hfb]
    | true =>
      have hfb : (docMatch d q == Except.ok true) = true := by
        rw [hb]; decide
      simp [deleteLoop, hb, hrest, List.filter_cons, hfb]

/-- `C8`: `delete_many(query)` removes exactly the matching documents,
keeps the relative order of the retained ones (a filter of the original
sequence), returns the number removed, and leaves every index value set
untouched (stale tuples are not pruned) — under the hypothesis that
`match` raises no error on the stored documents. -/
theorem C8_delete_many (c : Collection) (q : Option Doc)
    (h : ∀ d ∈ c.documents, ∃ b, docMatch d q = .ok b) :
    delete_many c q =
      ({ documents := c.documents.filter (fun d => !(docMatch d q == Except.ok true)),
         indexes := c.indexes },
       .ok (c.documents.filter (fun d => docMatch d q == Except.ok true)).length) := by
  unfold delete_many
  rw [deleteLoop_filter q c.documents h]

/-- `C8`, witness: deleting `{"x.$gte": 5}` from the collection holding
`x = 3, 5, 9` removes the two matching documents (count `2`), retains the
`x = 3` document, and leaves the `_id` index value set with all three
stale tuples. -/
theorem C8_witness :
    delete_many (insert_many emptyCollection
        [[(['x'], .int 3)], [(['x'], .int 5)], [(['x'], .int 9)]]).1
      (some [(['x', '.', '$', 'g', 't', 'e'], .int 5)]) =
      ({ documents := [[(['x'], Value.int 3), (idChars, Value.int 1)]],
         indexes := [([idChars], [[Value.int 1], [Value.int 2], [Value.int 3]])] },
       .ok 2) := by
  have h := C8_delete_many (insert_many emptyCollection
      [[(['x'], .int 3)], [(['x'], .int 5)], [(['x'], .int 9)]]).1
    (some [(['x', '.', '$', 'g', 't', 'e'], .int 5)]) (by decide)
  rw [h]
  rfl

/-- A successful `insert_many` iteration leaves a record with its own
`_id` untouched, and writes the assigned integer id into a record without
one. -/
theorem insertStep_ok_record (c : Collection) (d : Doc) (c1 : Collection) (d' : Doc)
    (h : insertStep c d = (c1, d', none)) :
    (alistGet d idChars ≠ none → d' = d) ∧
    (alistGet d idChars = none → ∃ k : Int, d' = d ++ [(idChars, .int k)]) := by
  unfold insertStep at h
  by_cases hid : (alistGet d idChars).isSome
  · rw [if_pos hid] at h
    dsimp only at h
    refine ⟨fun _ => ?_, fun hnone => by rw [hnone] at hid; simp at hid⟩
    cases hv : _validate_index c (_flatten d) with
    | error e => rw [hv] at h; dsimp only at h; simp [Prod.ext_iff] at h
    | ok u =>
      rw [hv] at h
      dsimp only at h
      rcases hr : registerLoop (_flatten d) c.indexes with ⟨idx', r⟩
      rw [hr] at h
      dsimp only at h
      simp only [Prod.ext_iff] at h
      exact h.2.1.symm
  · rw [if_neg hid] at h
    have hnone : alistGet d idChars = none := by
      cases hg : alistGet d idChars with
      | none => rfl
      | some v => rw [hg] at hid; simp at hid
    refine ⟨fun hc => absurd hnone hc, fun _ => ?_⟩
    cases hgid : _get_new_id c with
    | error e => rw [hgid] at h; dsimp only [Except.map] at h; simp [Prod.ext_iff] at h
    | ok k =>
      rw [hgid] at h
      dsimp only [Except.map] at h
      refine ⟨k, ?_⟩
      cases hv : _validate_index c (_flatten (d ++ [(idChars, Value.int k)])) with
      | error e => rw [hv] at h; dsimp only at h; simp [Prod.ext_iff] at h
      | ok u =>
        rw [hv] at h
        dsimp only at h
        rcases hr : registerLoop (_flatten (d ++ [(idChars, Value.int k)])) c.indexes
          with ⟨idx', r⟩
        rw [hr] at h
        dsimp only at h
        simp only [Prod.ext_iff] at h
        exact h.2.1.symm

/-- `C10`: a successful `insert_many` call mutates the caller's records:
every input record without `_id` is handed back with the assigned integer
`_id` appended to it (records with `_id` are untouched), and what is
stored is the flattened copy of exactly these mutated records. -/
theorem C10_insert_mutates_input (ds : List Doc) : ∀ (c c' : Collection) (ds' : List Doc),
    insertLoop c ds = (c', ds', none) →
    List.Forall₂ (fun input output =>
      (alistGet input idChars ≠ none → output = input) ∧
      (alistGet input idChars = none → ∃ k : Int, output = input ++ [(idChars, .int k)]))
      ds ds' ∧
    c'.documents = c.documents ++ ds'.map _flatten := by
  induction ds with
  | nil =>
    intro c c' ds' h
    simp only [insertLoop, Prod.ext_iff] at h
    obtain ⟨h1, h2, _⟩ := h
    rw [← h1, ← h2]
    exact ⟨List.Forall₂.nil, by simp⟩
  | cons d ds ih =>
    intro c c' ds' h
    simp only [insertLoop] at h
    rcases hstep : insertStep c d with ⟨c1, d1, r1⟩
    rw [hstep] at h
    cases r1 with
    | some e => dsimp only at h; simp [Prod.ext_iff] at h
    | none =>
      dsimp only at h
      rcases hloop : insertLoop c1 ds with ⟨c2, ds2, r2⟩
      rw [hloop] at h
      dsimp only at h
      simp only [Prod.ext_iff] at h
      obtain ⟨hc, hds, hr⟩ := h
      subst hr
      obtain ⟨hall, hdocs⟩ := ih c1 c2 ds2 hloop
      have hrec := insertStep_ok_record c d c1 d1 hstep
      have hstepdocs := insertStep_ok_documents c d c1 d1 hstep
      refine ⟨?_, ?_⟩
      · rw [← hds]
        exact List.Forall₂.cons hrec hall
      · rw [← hc, hdocs, hstepdocs, ← hds]
        simp

/-- `C10`, witness: inserting the batch `{"a": 7}`, `{"b": 2, "_id": 9}`
hands the caller back `{"a": 7, "_id": 1}` (mutated) and
`{"b": 2, "_id": 9}` (untouched). -/
theorem C10_witness :
    List.Forall₂ (fun input output =>
      (alistGet input idChars ≠ none → output = input) ∧
      (alistGet input idChars = none → ∃ k : Int, output = input ++ [(idChars, .int k)]))
      [[(['a'], Value.int 7)], [(['b'], Value.int 2), (idChars, Value.int 9)]]
      [[(['a'], Value.int 7), (idChars, Value.int 1)],
       [(['b'], Value.int 2), (idChars, Value.int 9)]] :=
  (C10_insert_mutates_input
    [[(['a'], Value.int 7)], [(['b'], Value.int 2), (idChars, Value.int 9)]]
    emptyCollection
    { documents := [[(['a'], Value.int 7), (idChars, Value.int 1)],
                    [(['b'], Value.int 2), (idChars, Value.int 9)]],
      indexes := [([idChars], [[Value.int 1], [Value.int 9]])] }
    [[(['a'], Value.int 7), (idChars, Value.int 1)],
     [(['b'], Value.int 2), (idChars, Value.int 9)]]
    (by rfl)).1

theorem sumInts_01 : ∀ (vs : List Value) (acc : Int),
    (vs.all fun v => decide (v = .int 0) || decide (v = .int 1)) = true →
    sumInts acc vs = .ok (acc + ((vs.countP fun v => decide (v = .int 1)) : Int)) := by
  intro vs
  induction vs with
  | nil => intro acc h; simp [sumInts]
  | cons v rest ih =>
    intro acc h
    simp only [List.all_cons, Bool.and_eq_true, Bool.or_eq_true, decide_eq_true_eq] at h
    obtain ⟨hv, hrest⟩ := h
    have hrest' : (rest.all fun v => decide (v = .int 0) || decide (v = .int 1)) = true := by
      simp only [List.all_eq_true] at hrest ⊢
      intro x hx
      have := hrest x hx
      simpa using this
    cases hv with
    | inl h0 =>
      subst h0
      rw [show sumInts acc (Value.int 0 :: rest) = sumInts (acc + 0) rest from rfl,
        ih (acc + 0) hrest']
      simp [List.countP_cons]
    | inr h1 =>
      subst h1
      rw [show sumInts acc (Value.int 1 :: rest) = sumInts (acc + 1) rest from rfl,
        ih (acc + 1) hrest']
      have : acc + 1 + ((rest.countP fun v => decide (v = .int 1)) : Int) =
          acc + (((rest.countP fun v => decide (v = .int 1)) : Int) + 1) := by omega
      rw [this]
      simp [List.countP_cons]

/-- On a `0`/`1`-valued spec, the `n != 0 and n != len` test of
`_validate_keys` is exactly the spec's mixing condition. -/
theorem mixes_iff_counts (ks : Doc) (h01 : values01 ks = true) :
    mixesSelection ks = true ↔
      ((((ks.filter fun p => decide (p.1 ≠ idChars)).map Prod.snd).countP
          fun v => decide (v = Value.int 1)) ≠ 0 ∧
       (((ks.filter fun p => decide (p.1 ≠ idChars)).map Prod.snd).countP
          fun v => decide (v = Value.int 1)) ≠
         (ks.filter fun p => decide (p.1 ≠ idChars)).length) := by
  have h01' : ∀ p ∈ ks, p.2 = Value.int 0 ∨ p.2 = Value.int 1 := by
    intro p hp
    have := (List.all_eq_true.mp h01) p hp
    simpa using this
  unfold mixesSelection
  rw [Bool.and_eq_true, List.any_eq_true, List.any_eq_true]
  rw [List.countP_map]
  constructor
  · rintro ⟨⟨p0, hp0, hc0⟩, ⟨p1, hp1, hc1⟩⟩
    simp only [Bool.and_eq_true, decide_eq_true_eq] at hc0 hc1
    constructor
    · intro hzero
      rw [List.countP_eq_zero] at hzero
      exact hzero p1 (List.mem_filter.mpr ⟨hp1, by simp [hc1.1]⟩) (by simp [hc1.2])
    · intro hlen
      rw [List.countP_eq_length] at hlen
      have := hlen p0 (List.mem_filter.mpr ⟨hp0, by simp [hc0.1]⟩)
      simp [hc0.2] at this
  · rintro ⟨hzero, hlen⟩
    constructor
    · rw [Ne, List.countP_eq_length] at hlen
      push_neg at hlen
      obtain ⟨p, hpmem, hp1⟩ := hlen
      have hpks := (List.mem_filter.mp hpmem).1
      have hpid := (List.mem_filter.mp hpmem).2
      refine ⟨p, hpks, ?_⟩
      have := h01' p hpks
      simp only [Function.comp, decide_eq_true_eq] at hp1
      rcases this with h0 | h1
      · simp [hpid, h0]
      · exact absurd (by simp [h1]) hp1
    · rw [Ne, List.countP_eq_zero] at hzero
      push_neg at hzero
      obtain ⟨p, hpmem, hp1⟩ := hzero
      have hpks := (List.mem_filter.mp hpmem).1
      have hpid := (List.mem_filter.mp hpmem).2
      refine ⟨p, hpks, ?_⟩
      simp only [Function.comp, decide_eq_true_eq] at hp1
      simp [hpid, hp1]

theorem filter_map_01 (ks : Doc) (h01 : values01 ks = true) :
    (((ks.filter fun p => decide (p.1 ≠ idChars)).map Prod.snd).all
      fun v => decide (v = .int 0) || decide (v = .int 1)) = true := by
  rw [List.all_eq_true]
  intro v hv
  obtain ⟨p, hpmem, rfl⟩ := List.mem_map.mp hv
  exact (List.all_eq_true.mp h01) p (List.mem_filter.mp hpmem).1

/-- On a `0`/`1`-valued flattened spec, `_validate_keys` raises
*invalid-selection* exactly when the spec mixes `0` and `1` among the
fields other than `_id`. -/
theorem validate_keys_invalid_iff (data ks : Doc) (h01 : values01 ks = true) :
    _validate_keys data ks = .error .invalidSelection ↔ mixesSelection ks = true := by
  unfold _validate_keys
  by_cases hone : ks.length = 1 ∧ (alistGet ks idChars).getD (.int 0) = .int 1
  · rw [if_pos hone]
    constructor
    · intro h; exact Except.noConfusion h
    · intro hmix
      exfalso
      obtain ⟨p, hp⟩ := List.length_eq_one.mp hone.1
      by_cases hid : p.1 = idChars
      · rw [hp] at hmix
        unfold mixesSelection at hmix
        simp [hid] at hmix
      · rw [hp] at hone
        have hnone : alistGet [p] idChars = none := by
          simp [alistGet, hid]
        rw [hnone] at hone
        simp at hone
  · rw [if_neg hone]
    dsimp only
    rw [sumInts_01 _ 0 (filter_map_01 ks h01)]
    dsimp only
    rw [mixes_iff_counts ks h01]
    set cnt := (((ks.filter fun p => decide (p.1 ≠ idChars)).map Prod.snd).countP
      fun v => decide (v = Value.int 1)) with hcnt
    set len := (ks.filter fun p => decide (p.1 ≠ idChars)).length with hlendef
    by_cases hcond : (0 : Int) + (cnt : Int) ≠ 0 ∧ (0 : Int) + (cnt : Int) ≠ (len : Int)
    · obtain ⟨hc1, hc2⟩ := hcond
      rw [if_pos ⟨hc1, hc2⟩]
      constructor
      · intro _; exact ⟨by omega, by omega⟩
      · intro _; rfl
    · rw [if_neg hcond]
      constructor
      · intro h; exact Except.noConfusion h
      · intro h
        obtain ⟨h1, h2⟩ := h
        exact absurd (⟨by omega, by omega⟩ :
          (0 : Int) + (cnt : Int) ≠ 0 ∧ (0 : Int) + (cnt : Int) ≠ (len : Int)) hcond

/-- Under a `0`/`1`-valued flattened spec, `_validate_keys` either succeeds
or raises *invalid-selection* (the sum never type-errors). -/
theorem validate_keys_ok_or_invalid (data ks : Doc) (h01 : values01 ks = true) :
    (∃ vk, _validate_keys data ks = .ok vk) ∨
      _validate_keys data ks = .error .invalidSelection := by
  unfold _validate_keys
  by_cases hone : ks.length = 1 ∧ (alistGet ks idChars).getD (.int 0) = .int 1
  · rw [if_pos hone]; exact Or.inl ⟨ks, rfl⟩
  · rw [if_neg hone]
    dsimp only
    rw [sumInts_01 _ 0 (filter_map_01 ks h01)]
    dsimp only
    by_cases hcond : (0 : Int) +
        ((((ks.filter fun p => decide (p.1 ≠ idChars)).map Prod.snd).countP
          fun v => decide (v = Value.int 1) : Nat) : Int) ≠ 0 ∧
        (0 : Int) +
        ((((ks.filter fun p => decide (p.1 ≠ idChars)).map Prod.snd).countP
          fun v => decide (v = Value.int 1) : Nat) : Int) ≠
          (((ks.filter fun p => decide (p.1 ≠ idChars)).length : Nat) : Int)
    · rw [if_pos hcond]; exact Or.inr rfl
    · rw [if_neg hcond]; exact Or.inl ⟨_, rfl⟩

theorem key_is_match_error (key s : Key) (e : DBError)
    (h : key_is_match key s = .error e) : e = .indexError := by
  unfold key_is_match at h
  by_cases h1 : key = s
  · rw [if_pos h1] at h; exact Except.noConfusion h
  · rw [if_neg h1] at h
    by_cases h2 : s.isPrefixOf key = true
    · rw [if_pos h2] at h
      cases hr : replaceAll key s with
      | nil => rw [hr] at h; exact (Except.error.inj h).symm
      | cons c cs => rw [hr] at h; exact Except.noConfusion h
    · rw [if_neg h2] at h; exact Except.noConfusion h

theorem selInner_error (key : Key) : ∀ (ks : Doc) (e : DBError),
    selInner key ks = .error e → e = .indexError := by
  intro ks
  induction ks with
  | nil => intro e h; simp [selInner] at h
  | cons p rest ih =>
    obtain ⟨sk, inc⟩ := p
    intro e h
    simp only [selInner] at h
    by_cases ht : pyTruthy inc = true
    · rw [if_pos ht] at h
      cases hk : key_is_match key sk with
      | error e' =>
        rw [hk] at h
        exact (Except.error.inj h) ▸ key_is_match_error key sk e' hk
      | ok b =>
        rw [hk] at h
        cases hr : selInner key rest with
        | error e' =>
          rw [hr] at h
          exact (Except.error.inj h) ▸ ih e' hr
        | ok r => rw [hr] at h; exact Except.noConfusion h
    · rw [if_neg ht] at h
      exact ih e h

theorem selOuter_error (ks : Doc) : ∀ (data sel : Doc) (e : DBError),
    selOuter ks sel data = .error e → e = .indexError := by
  intro data
  induction data with
  | nil => intro sel e h; simp [selOuter] at h
  | cons p rest ih =>
    obtain ⟨k, v⟩ := p
    intro sel e h
    simp only [selOuter] at h
    cases hi : selInner k ks with
    | error e' =>
      rw [hi] at h
      exact (Except.error.inj h) ▸ selInner_error k ks e' hi
    | ok b =>
      rw [hi] at h
      cases b with
      | true => exact ih (alistSet sel k v) e h
      | false => exact ih sel e h

theorem unflattenE_error (d : Doc) (e : DBError) (h : unflattenE d = .error e) :
    e = .typeError := by
  unfold unflattenE at h
  cases hu : _unflatten d with
  | some r => rw [hu] at h; exact Except.noConfusion h
  | none => rw [hu] at h; exact (Except.error.inj h).symm

/-- `C6`, amended claim: on a projection spec whose flattened values are
each `0` or `1`, `select` raises *invalid-selection* **iff** the spec
assigns `0` to some field other than `_id` and `1` to another field other
than `_id`.  (The original claim's further assertion that uniform specs
always project "without error" is false: `select` can still die with an
`IndexError`, see the counterexample.) -/
theorem C6_invalid_selection_iff (data : Doc) (spec : Option Doc)
    (h01 : values01 (flatSpec spec) = true) :
    (select data spec = .error .invalidSelection ↔
      mixesSelection (flatSpec spec) = true) := by
  match spec with
  | none =>
    simp only [select, flatSpec]
    constructor
    · intro h
      exact DBError.noConfusion (unflattenE_error data _ h)
    · intro h; simp [mixesSelection] at h
  | some ks =>
    by_cases hemp : ks.isEmpty = true
    · have hks : ks = [] := List.isEmpty_iff.mp hemp
      subst hks
      simp only [select, flatSpec, if_pos]
      constructor
      · intro h
        exact DBError.noConfusion (unflattenE_error data _ h)
      · intro h; simp [mixesSelection, _flatten, flattenDoc] at h
    · have hfs : flatSpec (some ks) = _flatten ks := rfl
      rw [hfs] at h01 ⊢
      simp only [select]
      rw [if_neg hemp]
      by_cases hmix : mixesSelection (_flatten ks) = true
      · rw [(validate_keys_invalid_iff data (_flatten ks) h01).mpr hmix]
        simp [hmix]
      · rcases validate_keys_ok_or_invalid data (_flatten ks) h01 with ⟨vk, hvk⟩ | hinv
        · rw [hvk]
          dsimp only
          constructor
          · intro h
            exfalso
            cases ho : selOuter vk [] data with
            | error e =>
              rw [ho] at h
              exact DBError.noConfusion ((Except.error.inj h) ▸ selOuter_error vk data [] e ho)
            | ok sel =>
              rw [ho] at h
              dsimp only at h
              exact DBError.noConfusion (unflattenE_error sel _ h)
          · intro h; exact absurd h hmix
        · exact absurd ((validate_keys_invalid_iff data (_flatten ks) h01).mp hinv) hmix

/-- `C6`, counterexample to the original claim: the spec `{"a": 1}` is
uniform (all values `1`, no mixing), yet `select` on the document
`{"aa": 5, "_id": 1}` raises an `IndexError` — `"aa"` starts with the
selected key `"a"` and deleting every occurrence of `"a"` from it leaves
the empty string, so `key.replace(selected_key, '')[0]` is out of
bounds.  So a uniform spec does not always "produce a projection without
error". -/
theorem C6_counterexample :
    values01 (flatSpec (some [(['a'], .int 1)])) = true ∧
    mixesSelection (flatSpec (some [(['a'], .int 1)])) = false ∧
    select [(['a', 'a'], .int 5), (idChars, .int 1)] (some [(['a'], .int 1)]) =
      .error .indexError := by
  refine ⟨by decide, by decide, by decide⟩

/-- `C6`, witness for the amended claim: the mixing spec `{"a": 0, "b": 1}`
raises *invalid-selection* on `{"a": 1, "b": 2, "_id": 7}`, and the
uniform spec `{"a": 0}` does not raise *invalid-selection* there. -/
theorem C6_witness :
    select [(['a'], .int 1), (['b'], .int 2), (idChars, .int 7)]
        (some [(['a'], .int 0), (['b'], .int 1)]) = .error .invalidSelection ∧
    select [(['a'], .int 1), (['b'], .int 2), (idChars, .int 7)]
        (some [(['a'], .int 0)]) ≠ .error .invalidSelection := by
  constructor
  · exact (C6_invalid_selection_iff
      [(['a'], .int 1), (['b'], .int 2), (idChars, .int 7)]
      (some [(['a'], .int 0), (['b'], .int 1)]) (by decide)).mpr (by decide)
  · intro hc
    have := (C6_invalid_selection_iff
      [(['a'], .int 1), (['b'], .int 2), (idChars, .int 7)]
      (some [(['a'], .int 0)]) (by decide)).mp hc
    exact absurd this (by decide)

/-- `C7`, amended claim.  For a collection already present under `name`:
when no document matches the query, `read_and_write` returns the not-found
sentinel (`none`, no error) and the database is returned unchanged; the
`selection` argument is ignored entirely (the Python body never uses the
parameter); and when `find` yields a first match whose projected form
carries `_id = idv`, the call performs exactly
`update_many({"_id": idv}, {"$set": data})` on that collection and returns
the single re-read document in full — not projected by `selection`. -/
theorem C7_read_and_write_amended (d : EphemeralDB) (name : Key) (c : Collection)
    (query data : Doc) (sel sel' : Option Doc)
    (hc : alistGet d.db name = some c) :
    (find c (some query) none = .ok [] →
      read_and_write d name query data sel = (d, .ok none)) ∧
    (read_and_write d name query data sel = read_and_write d name query data sel') ∧
    (∀ (first : Doc) (rest : List Doc) (idv : Value) (c' : Collection) (n : Nat)
       (u : Doc),
      find c (some query) none = .ok (first :: rest) →
      alistGet first idChars = some idv →
      update_many c (some [(idChars, idv)]) [(setChars, .dict data)] = (c', .ok n) →
      find c' (some [(idChars, idv)]) none = .ok [u] →
      read_and_write d name query data sel = (setCollection d name c', .ok (some u))) := by
  have hget : getCollection d name = (c, d) := by
    unfold getCollection
    rw [hc]
  refine ⟨?_, rfl, ?_⟩
  · intro hfind
    unfold read_and_write
    rw [hget]
    dsimp only
    rw [hfind]
  · intro first rest idv c' n u hfind hid hupd hfind2
    unfold read_and_write
    rw [hget]
    dsimp only
    rw [hfind]
    dsimp only
    rw [hid]
    dsimp only
    have hwrite : dbWrite d name data (some [(idChars, idv)]) =
        (setCollection d name c', .ok n) := by
      unfold dbWrite
      rw [hget]
      dsimp only
      rw [hupd]
    rw [hwrite]
    dsimp only
    have hget2 : getCollection (setCollection d name c') name =
        (c', setCollection d name c') := by
      unfold getCollection setCollection
      rw [alistGet_set_self]
    have hread : dbRead (setCollection d name c') name (some [(idChars, idv)]) none =
        (setCollection d name c', .ok [u]) := by
      unfold dbRead
      rw [hget2]
      dsimp only
      rw [hfind2]
    rw [hread]

/-- `C7`, counterexample to the original claim's "projected by selection":
on the document `{"a": 1, "b": 0, "_id": 3}`, `read_and_write` with query
`{"a": 1}`, data `{"b": 9}` and selection `{"b": 1}` returns the full
updated document `{"a": 1, "b": 9, "_id": 3}`, although projecting the
updated document by that selection would have dropped `"a"`. -/
theorem C7_counterexample :
    (read_and_write
        ⟨[(['c'],
           { documents :=
               [[(['a'], Value.int 1), (['b'], Value.int 0), (idChars, Value.int 3)]],
             indexes := [([idChars], [[Value.int 3]])] })]⟩
        ['c'] [(['a'], .int 1)] [(['b'], .int 9)] (some [(['b'], .int 1)])).2 =
      .ok (some [(['a'], .int 1), (['b'], .int 9), (idChars, .int 3)]) ∧
    select [(['a'], .int 1), (['b'], .int 9), (idChars, .int 3)]
        (some [(['b'], .int 1)]) =
      .ok [(['b'], .int 9), (idChars, .int 3)] ∧
    ([(['a'], .int 1), (['b'], .int 9), (idChars, .int 3)] : Doc) ≠
      [(['b'], .int 9), (idChars, .int 3)] := by
  refine ⟨by decide, by decide, by decide⟩

/-- `C7`, witness: the claim's own example — on `{"a": 1, "b": 0, "_id":
3}`, `read_and_write(coll, {"a": 1}, {"b": 9})` updates exactly that
document via its concrete `_id` and returns `{"a": 1, "b": 9, "_id": 3}`;
a query matching nothing returns the sentinel with the database
unchanged. -/
theorem C7_witness :
    read_and_write
        ⟨[(['c'],
           { documents :=
               [[(['a'], Value.int 1), (['b'], Value.int 0), (idChars, Value.int 3)]],
             indexes := [([idChars], [[Value.int 3]])] })]⟩
        ['c'] [(['a'], .int 1)] [(['b'], .int 9)] none =
      (setCollection
        ⟨[(['c'],
           { documents :=
               [[(['a'], Value.int 1), (['b'], Value.int 0), (idChars, Value.int 3)]],
             indexes := [([idChars], [[Value.int 3]])] })]⟩
        ['c']
        { documents :=
            [[(['a'], Value.int 1), (['b'], Value.int 9), (idChars, Value.int 3)]],
          indexes := [([idChars], [[Value.int 3]])] },
       .ok (some [(['a'], .int 1), (['b'], .int 9), (idChars, .int 3)])) ∧
    read_and_write
        ⟨[(['c'],
           { documents :=
               [[(['a'], Value.int 1), (['b'], Value.int 0), (idChars, Value.int 3)]],
             indexes := [([idChars], [[Value.int 3]])] })]⟩
        ['c'] [(['z'], .int 1)] [(['b'], .int 9)] none =
      (⟨[(['c'],
          { documents :=
              [[(['a'], Value.int 1), (['b'], Value.int 0), (idChars, Value.int 3)]],
            indexes := [([idChars], [[Value.int 3]])] })]⟩,
       .ok none) := by
  constructor
  · exact (C7_read_and_write_amended
      ⟨[(['c'],
         { documents :=
             [[(['a'], Value.int 1), (['b'], Value.int 0), (idChars, Value.int 3)]],
           indexes := [([idChars], [[Value.int 3]])] })]⟩
      ['c']
      { documents :=
          [[(['a'], Value.int 1), (['b'], Value.int 0), (idChars, Value.int 3)]],
        indexes := [([idChars], [[Value.int 3]])] }
      [(['a'], .int 1)] [(['b'], .int 9)] none none (by rfl)).2.2
      [(['a'], Value.int 1), (['b'], Value.int 0), (idChars, Value.int 3)] [] (.int 3)
      { documents :=
          [[(['a'], Value.int 1), (['b'], Value.int 9), (idChars, Value.int 3)]],
        indexes := [([idChars], [[Value.int 3]])] }
      1 [(['a'], Value.int 1), (['b'], Value.int 9), (idChars, Value.int 3)]
      (by rfl) (by rfl) (by rfl) (by rfl)
  · exact (C7_read_and_write_amended
      ⟨[(['c'],
         { documents :=
             [[(['a'], Value.int 1), (['b'], Value.int 0), (idChars, Value.int 3)]],
           indexes := [([idChars], [[Value.int 3]])] })]⟩
      ['c']
      { documents :=
          [[(['a'], Value.int 1), (['b'], Value.int 0), (idChars, Value.int 3)]],
        indexes := [([idChars], [[Value.int 3]])] }
      [(['z'], .int 1)] [(['b'], .int 9)] none none (by rfl)).1 (by rfl)

/-- The `_id`-uniqueness invariant: the `_id` unique index is tracked, its
value set covers the `_id` of every stored document, and the stored `_id`
values are pairwise distinct. -/
def CollectionIdInv (c : Collection) : Prop :=
  ∃ s, alistGet c.indexes [idChars] = some s ∧
    (∀ d ∈ c.documents, ∃ v, alistGet d idChars = some v ∧ [v] ∈ s) ∧
    (idsOf c).Nodup

theorem inv_empty : CollectionIdInv emptyCollection := by
  refine ⟨[], by rfl, ?_, ?_⟩
  · intro d hd
    simp [emptyCollection, create_index, alistGet, indexScan] at hd
  · simp [idsOf, emptyCollection, create_index, alistGet, indexScan]

theorem tupleOf_single (d : Doc) (k : Key) (t : List Value)
    (h : tupleOf d [k] = .ok t) : ∃ v, alistGet d k = some v ∧ t = [v] := by
  unfold tupleOf at h
  cases hg : alistGet d k with
  | none => rw [hg] at h; exact Except.noConfusion h
  | some v =>
    rw [hg] at h
    refine ⟨v, rfl, ?_⟩
    simp only [tupleOf] at h
    exact (Except.ok.inj h).symm

theorem mem_setInsert_self (s : IndexSet) (t : List Value) : t ∈ setInsert s t := by
  unfold setInsert
  by_cases h : t ∈ s
  · rw [if_pos h]; exact h
  · rw [if_neg h]; simp

theorem mem_setInsert_of_mem (s : IndexSet) (t x : List Value) (h : x ∈ s) :
    x ∈ setInsert s t := by
  unfold setInsert
  by_cases ht : t ∈ s
  · rw [if_pos ht]; exact h
  · rw [if_neg ht]; simp [h]

/-- When validation succeeded, `_register_keys` raises nothing and each
index's set gains exactly the document's (previously absent) value
tuple. -/
theorem registerLoop_of_validate (d : Doc) : ∀ (idxs : List (IndexKeys × IndexSet)),
    validateAgainst idxs d = .ok () →
    (registerLoop d idxs).2 = none ∧
    ∀ (k : IndexKeys) (s : IndexSet), alistGet idxs k = some s →
      ∃ t, tupleOf d k = .ok t ∧ t ∉ s ∧
        alistGet (registerLoop d idxs).1 k = some (setInsert s t) := by
  intro idxs
  induction idxs with
  | nil =>
    intro h
    exact ⟨rfl, by intro k s hk; simp [alistGet] at hk⟩
  | cons p rest ih =>
    obtain ⟨idx0, s0⟩ := p
    intro h
    simp only [validateAgainst] at h
    cases ht : tupleOf d idx0 with
    | error e => rw [ht] at h; exact Except.noConfusion h
    | ok t0 =>
      rw [ht] at h
      dsimp only at h
      by_cases hmem : t0 ∈ s0
      · rw [if_pos hmem] at h; exact Except.noConfusion h
      · rw [if_neg hmem] at h
        obtain ⟨hre, hrest⟩ := ih h
        constructor
        · simp only [registerLoop, ht]
          exact hre
        · intro k s hk
          by_cases hkk : idx0 = k
          · subst hkk
            simp only [alistGet, if_pos rfl] at hk
            obtain rfl : s0 = s := Option.some.inj hk
            refine ⟨t0, ht, hmem, ?_⟩
            simp [registerLoop, ht, alistGet]
          · simp only [alistGet, if_neg hkk] at hk
            obtain ⟨t, h1, h2, h3⟩ := hrest k s hk
            refine ⟨t, h1, h2, ?_⟩
            simp only [registerLoop, ht, alistGet, if_neg hkk]
            exact h3

/-- Every `insert_many` iteration preserves the `_id` invariant: a new
document is validated against the `_id` index (whose set covers every
stored id) before it is appended and registered. -/
theorem insertStep_inv (c : Collection) (doc : Doc) (c1 : Collection) (d1 : Doc)
    (r1 : Option DBError) (hstep : insertStep c doc = (c1, d1, r1))
    (hinv : CollectionIdInv c) : CollectionIdInv c1 := by
  obtain ⟨s, hs, hmem, hnodup⟩ := hinv
  unfold insertStep at hstep
  cases hassign : (if (alistGet doc idChars).isSome then Except.ok doc
      else Except.map (fun i => doc ++ [(idChars, Value.int i)]) (_get_new_id c)) with
  | error e =>
    rw [hassign] at hstep
    dsimp only at hstep
    simp only [Prod.ext_iff] at hstep
    rw [← hstep.1]
    exact ⟨s, hs, hmem, hnodup⟩
  | ok doc' =>
    rw [hassign] at hstep
    dsimp only at hstep
    cases hv : _validate_index c (_flatten doc') with
    | error e =>
      rw [hv] at hstep
      dsimp only at hstep
      simp only [Prod.ext_iff] at hstep
      rw [← hstep.1]
      exact ⟨s, hs, hmem, hnodup⟩
    | ok u =>
      cases u
      rw [hv] at hstep
      dsimp only at hstep
      rcases hr : registerLoop (_flatten doc') c.indexes with ⟨idx', r⟩
      rw [hr] at hstep
      dsimp only at hstep
      simp only [Prod.ext_iff] at hstep
      obtain ⟨hc1, _, _⟩ := hstep
      obtain ⟨hre, hall⟩ := registerLoop_of_validate (_flatten doc') c.indexes hv
      obtain ⟨t, htup, htnot, hget'⟩ := hall [idChars] s hs
      obtain ⟨v, hvget, rfl⟩ := tupleOf_single (_flatten doc') idChars t htup
      rw [← hc1]
      refine ⟨setInsert s [v], ?_, ?_, ?_⟩
      · rw [hr] at hget'
        exact hget'
      · intro d hd
        rcases List.mem_append.mp hd with hold | hnew
        · obtain ⟨vd, hvd, hvds⟩ := hmem d hold
          exact ⟨vd, hvd, mem_setInsert_of_mem s [v] [vd] hvds⟩
        · obtain rfl : d = _flatten doc' := by simpa using hnew
          exact ⟨v, hvget, mem_setInsert_self s [v]⟩
      · simp only [idsOf, List.map_append, List.map_cons, List.map_nil]
        rw [List.nodup_append]
        refine ⟨hnodup, by simp, ?_⟩
        intro x hx
        simp only [List.mem_cons, List.not_mem_nil, or_false]
        intro hxv
        subst hxv
        obtain ⟨d0, hd0, hd0x⟩ := List.mem_map.mp hx
        obtain ⟨v0, hv0, hv0s⟩ := hmem d0 hd0
        rw [hv0] at hd0x
        rw [hvget] at hd0x
        obtain rfl : v0 = v := by simpa using hd0x
        exact htnot hv0s

theorem insertLoop_inv (ds : List Doc) : ∀ (c : Collection),
    CollectionIdInv c → CollectionIdInv (insertLoop c ds).1 := by
  induction ds with
  | nil => intro c hinv; exact hinv
  | cons d ds ih =>
    intro c hinv
    simp only [insertLoop]
    rcases hstep : insertStep c d with ⟨c1, d1, r1⟩
    have hinv1 := insertStep_inv c d c1 d1 r1 hstep hinv
    cases r1 with
    | some e => exact hinv1
    | none =>
      dsimp only
      rcases hloop : insertLoop c1 ds with ⟨c2, ds2, r2⟩
      have := ih c1 hinv1
      rw [hloop] at this
      simp [hloop, this]

theorem insert_many_fst (c : Collection) (ds : List Doc) :
    (insert_many c ds).1 = (insertLoop c ds).1 := by
  unfold insert_many
  rcases h : insertLoop c ds with ⟨c', ds', r⟩
  cases r with
  | none => rfl
  | some e => rfl

theorem deleteLoop_sublist (q : Option Doc) : ∀ (docs r : List Doc) (n : Nat),
    deleteLoop q docs = .ok (r, n) → r.Sublist docs := by
  intro docs
  induction docs with
  | nil =>
    intro r n h
    simp only [deleteLoop, Except.ok.injEq, Prod.ext_iff] at h
    rw [← h.1]
  | cons d ds ih =>
    intro r n h
    simp only [deleteLoop] at h
    cases hm : docMatch d q with
    | error e => rw [hm] at h; exact Except.noConfusion h
    | ok b =>
      rw [hm] at h
      dsimp only at h
      cases hrec : deleteLoop q ds with
      | error e => rw [hrec] at h; exact Except.noConfusion h
      | ok p =>
        obtain ⟨r', n'⟩ := p
        rw [hrec] at h
        dsimp only at h
        cases b with
        | true =>
          simp only [Except.ok.injEq, Prod.ext_iff] at h
          rw [← h.1]
          exact (ih r' n' hrec).cons d
        | false =>
          simp only [Except.ok.injEq, Prod.ext_iff] at h
          rw [← h.1]
          exact (ih r' n' hrec).cons₂ d

theorem delete_many_inv (c : Collection) (q : Option Doc)
    (hinv : CollectionIdInv c) : CollectionIdInv (delete_many c q).1 := by
  obtain ⟨s, hs, hmem, hnodup⟩ := hinv
  unfold delete_many
  cases hd : deleteLoop q c.documents with
  | error e => exact ⟨s, hs, hmem, hnodup⟩
  | ok p =>
    obtain ⟨ds', n⟩ := p
    have hsub := deleteLoop_sublist q c.documents ds' n hd
    dsimp only
    refine ⟨s, hs, ?_, ?_⟩
    · intro d hdmem
      exact hmem d (hsub.subset hdmem)
    · exact List.Nodup.sublist (hsub.map (fun d => alistGet d idChars)) hnodup

theorem create_index_inv (c : Collection) (keys : IndexKeys) (u : Bool)
    (hinv : CollectionIdInv c) : CollectionIdInv (create_index c keys u).1 := by
  obtain ⟨s, hs, hmem, hnodup⟩ := hinv
  unfold create_index
  by_cases hcond : u = true ∧ (alistGet c.indexes keys).isNone
  · rw [if_pos hcond]
    rcases hscan : indexScan keys c.documents [] with ⟨s', r⟩
    dsimp only
    exact ⟨s, alistGet_append_left c.indexes [(keys, s')] [idChars] s hs, hmem, hnodup⟩
  · rw [if_neg hcond]
    exact ⟨s, hs, hmem, hnodup⟩

theorem runOps_inv (ops : List DBOp) : ∀ (c : Collection),
    CollectionIdInv c → CollectionIdInv (runOps c ops) := by
  induction ops with
  | nil => intro c hinv; exact hinv
  | cons op ops ih =>
    intro c hinv
    unfold runOps
    apply ih
    cases op with
    | insert ds =>
      show CollectionIdInv (insert_many c ds).1
      rw [insert_many_fst]
      exact insertLoop_inv ds c hinv
    | delete q => exact delete_many_inv c q hinv
    | createIdx k u => exact create_index_inv c k u hinv
    | findQ q sel => exact hinv

/-- `C3`, amended claim: starting from a fresh collection, after any
sequence of `insert_many`, `delete_many`, `create_index` and `find`
operations — that is, the public operations of the claim **without**
`update_many` (which rewrites `_id` with no re-validation) and without
`drop` (which discards the `_id` index) — every stored document carries an
`_id` and the `_id` values are pairwise distinct. -/
theorem C3_ids_distinct_without_update (ops : List DBOp) :
    (∀ d ∈ (runOps emptyCollection ops).documents, (alistGet d idChars).isSome) ∧
    (idsOf (runOps emptyCollection ops)).Nodup := by
  obtain ⟨s, hs, hmem, hnodup⟩ := runOps_inv ops emptyCollection inv_empty
  refine ⟨?_, hnodup⟩
  intro d hd
  obtain ⟨v, hv, _⟩ := hmem d hd
  simp [hv]

/-- `C3`, counterexample to the claim as stated: after
`insert_many([{"_id": 1}, {"_id": 2}])` the public operation
`update_many({}, {"$set": {"_id": 1}})` rewrites both ids to `1` — no
index is re-validated after the mutation — so the `_id` values are no
longer pairwise distinct. -/
theorem C3_counterexample :
    idsOf (update_many
        (insert_many emptyCollection [[(idChars, .int 1)], [(idChars, .int 2)]]).1
        (some []) [(setChars, .dict [(idChars, .int 1)])]).1 =
      [some (.int 1), some (.int 1)] ∧
    ¬ (idsOf (update_many
        (insert_many emptyCollection [[(idChars, .int 1)], [(idChars, .int 2)]]).1
        (some []) [(setChars, .dict [(idChars, .int 1)])]).1).Nodup := by
  refine ⟨by decide, by decide⟩
